import Mathlib

/-!
Verification of the relation dependency engine and the parallel extraction
engine of an ETL orchestrator (files `etl/relation.py` and
`etl/extract/extractor.py`).  The Python code is shallowly embedded below:
pure fragments become Lean functions, I/O results (file contents, object
listings, task outcomes) become explicit parameters, and Python sets are
represented by lists whose operations are membership based.
-/

namespace Etl

/-! ## Python primitives used by the source -/

/-- Model of the Python string membership test `needle in hay` (contiguous
substring) on explicit character lists. -/
def charListInfix (needle : List Char) : List Char → Bool
  | [] => needle.isEmpty
  | c :: t => needle.isPrefixOf (c :: t) || charListInfix needle t

/-- Model of Python `str.startswith` via character lists. -/
def strStartsWith (s pre : String) : Bool :=
  pre.data.isPrefixOf s.data

/-- Model of Python `str.endswith` via character lists. -/
def strEndsWith (s suf : String) : Bool :=
  suf.data.isSuffixOf s.data

/-- Model of the Python substring test `sub in s`. -/
def strContains (s sub : String) : Bool :=
  charListInfix sub.data s.data

/-- Lexicographic comparison of character lists by code point, as Python
compares strings. -/
def charListLe : List Char → List Char → Bool
  | [], _ => true
  | _ :: _, [] => false
  | a :: s, b :: t => if a = b then charListLe s t else decide (a.toNat < b.toNat)

/-- Python whitespace characters stripped by `str.strip()`. -/
def pyIsSpace (c : Char) : Bool :=
  c = ' ' || c = '\t' || c = '\n' || c = '\r' || c = '\x0b' || c = '\x0c'

/-- Model of Python `str.strip()`: drop leading and trailing whitespace. -/
def pyStrip (s : String) : String :=
  ⟨((s.data.dropWhile pyIsSpace).reverse.dropWhile pyIsSpace).reverse⟩

/-- Model of Python `str.rstrip(';')`: drop every trailing semicolon. -/
def pyRstripSemi (s : String) : String :=
  ⟨(s.data.reverse.dropWhile (· = ';')).reverse⟩

/-- Python set difference `xs - ys` on list representations of sets. -/
def setDiff (xs ys : List String) : List String :=
  xs.filter (fun x => !(ys.contains x))

/-- Python set union `xs | ys` (also `update`) on list representations. -/
def setUnion (xs ys : List String) : List String :=
  xs ++ ys.filter (fun y => !(xs.contains y))

/-- Python truthiness of an optional integer (`None` and `0` are falsy). -/
def truthy : Option Nat → Bool
  | none => false
  | some n => n != 0

/-! ## The data model: relations and their declared dependencies

A `RelationDescription` is reduced to the two fields the dependency engine
reads: `identifier` (the string `schema.table`) and `dependencies`
(the `depends_on` set of the table design). -/

structure RelationDescription where
  identifier : String
  dependencies : List String
deriving Repr, DecidableEq

/-- Equality of `Except` results is decidable (needed to evaluate the
embedded functions on concrete scenarios). -/
instance instDecEqExcept {ε α : Type} [DecidableEq ε] [DecidableEq α] :
    DecidableEq (Except ε α) := fun x y =>
  match x, y with
  | .ok a, .ok b =>
    if h : a = b then isTrue (by rw [h])
    else isFalse (fun hc => h (Except.ok.inj hc))
  | .error a, .error b =>
    if h : a = b then isTrue (by rw [h])
    else isFalse (fun hc => h (Except.error.inj hc))
  | .ok _, .error _ => isFalse (fun hc => Except.noConfusion hc)
  | .error _, .ok _ => isFalse (fun hc => Except.noConfusion hc)

/-! ## `order_by_dependencies`, phase 1: normalization

Source: `etl/relation.py`, lines 236-264.  For every description the code
computes `pg_internal_dependencies` (dependencies starting with
`pg_catalog`), `unknowns` (dependencies neither known nor internal), drops
both from the working dependency set, and finally makes every relation that
had internal dependencies depend on every relation in
`known_tables - known_unknowns - has_internal_dependencies`. -/

/-- Model of `known_tables`: the identifiers in the input, as a set
(`frozenset` in the source; here a deduplicated list). -/
def knownTables (relations : List RelationDescription) : List String :=
  (relations.map (·.identifier)).dedup

/-- Computation of `pg_internal_dependencies` of one description. -/
def pgInternalDeps (r : RelationDescription) : List String :=
  r.dependencies.filter (fun d => strStartsWith d "pg_catalog")

/-- Computation of `unknowns` of one description: declared dependencies that are neither
known tables nor internal. -/
def unknownDeps (known : List String) (r : RelationDescription) : List String :=
  r.dependencies.filter
    (fun d => !(known.contains d) && !((pgInternalDeps r).contains d))

/-- Working dependencies after dropping `unknowns` and
`pg_internal_dependencies` (lines 251 and 253). -/
def droppedDeps (known : List String) (r : RelationDescription) : List String :=
  setDiff (setDiff r.dependencies (unknownDeps known r)) (pgInternalDeps r)

/-- Model of `has_internal_dependencies`: identifiers of relations with a
`pg_catalog` dependency. -/
def hasInternalSet (relations : List RelationDescription) : List String :=
  (relations.filter (fun r => !(pgInternalDeps r).isEmpty)).map (·.identifier)

/-- Model of `known_unknowns`: the union over all descriptions of their unknown
dependency identifiers. -/
def knownUnknowns (relations : List RelationDescription) : List String :=
  relations.foldl (fun acc r => setUnion acc (unknownDeps (knownTables relations) r)) []

/-- Model of `has_no_internal_dependencies = known_tables - known_unknowns -
has_internal_dependencies` (line 261). -/
def noInternalSet (relations : List RelationDescription) : List String :=
  setDiff (setDiff (knownTables relations) (knownUnknowns relations))
    (hasInternalSet relations)

/-- The final working dependency set of one description after phase 1: the
dropped set, extended for internally dependent relations with every
relation in `has_no_internal_dependencies` (lines 262-264). -/
def finalDeps (relations : List RelationDescription) (r : RelationDescription) : List String :=
  let dropped := droppedDeps (knownTables relations) r
  if (hasInternalSet relations).contains r.identifier then
    setUnion dropped (noInternalSet relations)
  else dropped

/-- The dependency map handed to phase 2 (plays the role of `table_map`
with the mutated `dependencies` attribute of each description). -/
def depsMap (relations : List RelationDescription) : List (String × List String) :=
  relations.map (fun r => (r.identifier, finalDeps relations r))

/-! ## `order_by_dependencies`, phase 2: the resolution loop

Source: `etl/relation.py`, lines 266-284.  The priority queue holds
triples `(priority, tie_breaker, description)` and pops the smallest;
tie breakers are the unique initial indices, so the lexicographic order on
the first two components decides every pop.  The queue is represented as a
list kept sorted by that order. -/

/-- Insert into the sorted queue representation of the `PriorityQueue`. -/
def pqInsert (e : Nat × Nat × String) : List (Nat × Nat × String) → List (Nat × Nat × String)
  | [] => [e]
  | f :: rest =>
    if e.1 < f.1 ∨ (e.1 = f.1 ∧ e.2.1 < f.2.1) then e :: f :: rest
    else f :: pqInsert e rest

/-- Model of `[table_map[dep].order for dep in description.dependencies]`: the
assigned orders live in the association list `orders`. -/
def lookupOrder (orders : List (String × Nat)) (d : String) : Option Nat :=
  orders.lookup d

/-- Maximum of the assigned entries of `others` (Python
`max(order for order in others if order is not None)`; in the source it is
only evaluated when at least one entry is assigned). -/
def maxAssigned (others : List (Option Nat)) : Nat :=
  (others.filterMap id).foldl Nat.max 0

/-- Result of the resolution loop: the assignment of orders, or the
`CyclicDependencyError` (recording at which queue pop it was raised), or
exhaustion of the structural recursion budget (never reached from
`orderAssignments`, as proved below). -/
inductive OrdResult where
  | ok (orders : List (String × Nat))
  | cyclic (pops : Nat)
  | outOfFuel
deriving Repr, DecidableEq

/-- The `while not queue.empty()` loop (lines 269-282), with an explicit
structural fuel.  State: sorted queue, assigned orders, `latest`, and the
number of pops performed so far. -/
def orderLoop (dm : List (String × List String)) (nrTables : Nat) :
    Nat → List (Nat × Nat × String) → List (String × Nat) → Nat → Nat → OrdResult
  | 0, _, _, _, _ => .outOfFuel
  | _ + 1, [], orders, _, _ => .ok orders
  | fuel + 1, (minimum, tie, ident) :: rest, orders, latest, pops =>
    if minimum > 2 * nrTables then .cyclic (pops + 1)
    else
      let deps := (dm.lookup ident).getD []
      let others := deps.map (lookupOrder orders)
      if others.isEmpty then
        orderLoop dm nrTables fuel rest ((ident, latest + 1) :: orders) (latest + 1) (pops + 1)
      else if others.all truthy then
        let newOrder := Nat.max (maxAssigned others) latest + 1
        orderLoop dm nrTables fuel rest ((ident, newOrder) :: orders) newOrder (pops + 1)
      else if others.any truthy then
        let atLeast := maxAssigned others
        orderLoop dm nrTables fuel
          (pqInsert (Nat.max atLeast (Nat.max latest minimum) + 1, tie, ident) rest)
          orders latest (pops + 1)
      else
        orderLoop dm nrTables fuel
          (pqInsert (Nat.max latest minimum + 1, tie, ident) rest)
          orders latest (pops + 1)

/-- Initial queue: `queue.put((1, initial_order, description))` for each
description in input order (already sorted, since priorities are all 1 and
tie breakers increase). -/
def initQueue (relations : List RelationDescription) : List (Nat × Nat × String) :=
  relations.enum.map (fun p => (1, p.1, p.2.identifier))

/-- Termination measure of the loop: each queue entry of priority `p`
contributes `2 * nrTables + 2 - p`; every pop strictly decreases it. -/
def pqMeasure (nrTables : Nat) (q : List (Nat × Nat × String)) : Nat :=
  (q.map (fun e => 2 * nrTables + 2 - e.1)).sum

/-- Run the resolution loop on a list of relations.  The fuel is one more
than the initial measure, which suffices (see `orderLoop_no_fuel_exhaustion`). -/
def orderAssignments (relations : List RelationDescription) : OrdResult :=
  let nrTables := (knownTables relations).length
  orderLoop (depsMap relations) nrTables
    (relations.length * (2 * nrTables + 1) + 1) (initQueue relations) [] 0 0

/-- Model of `order_by_dependencies` (lines 213-284): compute the assignment, then
return the descriptions sorted by their assigned order (`sorted` with key
`order`; orders are distinct, hence any sort agrees with the stable one).
`Except.error n` models `CyclicDependencyError`, recording the pop count. -/
def order_by_dependencies (relations : List RelationDescription) : Except Nat (List RelationDescription) :=
  match orderAssignments relations with
  | .cyclic n => .error n
  | .outOfFuel => .error 0
  | .ok orders =>
    .ok (relations.insertionSort
      (fun a b => ((lookupOrder orders a.identifier).getD 0 : Nat) ≤
        (lookupOrder orders b.identifier).getD 0))

/-! ## Dependency edges of the declared graph

`DEdge relations a b` holds when the relation named `a` declares `b` among
its dependencies and `b` survives phase-1 normalization (it is a known,
non-catalog dependency) — the "resolved" edge relation of the spec. -/

def DEdge (relations : List RelationDescription) (a b : String) : Prop :=
  ∃ r ∈ relations, r.identifier = a ∧ b ∈ droppedDeps (knownTables relations) r

/-! ## `set_required_relations` (`etl/relation.py`, lines 287-303) -/

/-- One step of the reverse walk: append the description when any relation
already required depends on it (line 297-298). -/
def walkStep (req : List RelationDescription) (d : RelationDescription) : List RelationDescription :=
  if req.any (fun r => r.dependencies.contains d.identifier) then req ++ [d] else req

/-- Model of `set_required_relations`: order the descriptions, seed with the
selector matches, walk the ordered list in reverse appending relations some
required relation depends on, then produce the final `is_required` flag of
every description (`False` first, then `True` for the required ones).
The selector is modelled as a predicate on the identifier. -/
def set_required_relations (relations : List RelationDescription) (sel : String → Bool) :
    Except Nat (List (String × Bool)) :=
  match order_by_dependencies relations with
  | .error n => .error n
  | .ok ordered =>
    let seeds := ordered.filter (fun d => sel d.identifier)
    let required := ordered.reverse.foldl walkStep seeds
    .ok (ordered.map (fun r =>
      (r.identifier, (required.map (·.identifier)).contains r.identifier)))

/-- A relation identifier is an ancestor of the seed set: either it is a
seed itself, or a reachable relation declares it as a dependency and it
names a relation of the collection. -/
inductive Reach (relations : List RelationDescription) (sel : String → Bool) : String → Prop
  | seed (r : RelationDescription) : r ∈ relations → sel r.identifier = true →
      Reach relations sel r.identifier
  | step (r : RelationDescription) (x : String) : r ∈ relations →
      Reach relations sel r.identifier → x ∈ r.dependencies →
      (∃ t ∈ relations, t.identifier = x) → Reach relations sel x

/-! ## `RelationDescription.query_stmt` (`etl/relation.py`, lines 110-122)

The file fetch is modelled by its result: `sqlFileName` is the
`sql_file_name` attribute (absent when the relation has no SQL file) and
`fileContent` the text the fetch would return. -/

inductive EtlError where
  | missingQuery (msg : String)
  | missingCsvFiles (msg : String)
  | dataExtract (msg : String)
  | etlRuntime (msg : String)
  | otherError (msg : String)
deriving Repr, DecidableEq

def query_stmt (sqlFileName : Option String) (fileContent : String) :
    Except EtlError String :=
  match sqlFileName with
  | none => .error (.missingQuery "Missing SQL file")
  | some _ => .ok (pyRstripSemi (pyStrip fileContent))

/-- The cleanup described by the specification text: trailing whitespace
and a SINGLE trailing semicolon stripped.  (Stated from the spec words, to
be compared with `query_stmt`; leading whitespace handling follows the
source since the spec sentence is about the trailing end.) -/
def specQueryCleanup (s : String) : String :=
  let t := pyStrip s
  if t.data.getLast? = some ';' then ⟨t.data.dropLast⟩ else t

/-! ## `Extractor.write_manifest_file` (`etl/extract/extractor.py`, lines 129-168)

Object-store interactions are modelled by their results: `haveSuccess` is
whether `get_s3_object_last_modified` found the `_SUCCESS` sentinel, and
`listing` is what `list_objects_for_prefix` returns for the source prefix.
The outcome records the warnings issued and the upload performed. -/

/-- The manifest document together with its upload destination. -/
structure ManifestUpload where
  bucketName : String
  objectKey : String
  manifest : List (String × List (String × Bool))
deriving Repr, DecidableEq

structure ManifestResult where
  warnedMissingSuccess : Bool
  warnedNoCsv : Bool
  uploaded : Option ManifestUpload
deriving Repr, DecidableEq

/-- Model of `sorted(...)` over the retained keys (Python sorts strings by code
point). -/
def sortedKeys (keys : List String) : List String :=
  keys.insertionSort (fun a b => charListLe a.data b.data = true)

def write_manifest_file (dryRun _needsToWait : Bool)
    (relBucket relManifestKey srcBucket _srcPrefixArg : String)
    (haveSuccess : Bool) (listing : List String) :
    Except EtlError ManifestResult :=
  if !haveSuccess && !dryRun then
    .error (.missingCsvFiles "No valid CSV files (_SUCCESS is missing)")
  else
    let csvFiles := sortedKeys (listing.filter
      (fun key => strContains key "part" && strEndsWith key ".gz"))
    let remoteFiles := csvFiles.map (fun filename =>
      "s3://" ++ srcBucket ++ "/" ++ filename)
    let manifest := [("entries", remoteFiles.map (fun name => (name, true)))]
    if dryRun then
      if manifest.isEmpty then
        .ok ⟨!haveSuccess, true, none⟩
      else
        .ok ⟨!haveSuccess, false, none⟩
    else
      if manifest.isEmpty then
        .error (.missingCsvFiles "Found no CSV files")
      else
        .ok ⟨false, false, some ⟨relBucket, relManifestKey, manifest⟩⟩

/-! ## `Extractor.extract_source` (`etl/extract/extractor.py`, lines 63-96)

`extract_table` is a method of the concrete subclass; its behaviour is
modelled by an outcome function on relations.  Errors descending from
`ETLRuntimeError` are distinguished from all others. -/

inductive TableOutcome where
  | success
  | etlError (msg : String)
  | otherError (msg : String)
deriving Repr, DecidableEq

structure XRelation where
  identifier : String
  isRequired : Bool
deriving Repr, DecidableEq

/-- Result of a run of `extract_source`: a normal return with the list of
failed relations, or an escaped exception, each carrying the state of the
failure bookkeeping at that point. -/
inductive SourceRun where
  | returned (failed : List XRelation) (failedSources : List String)
  | raisedEtl (msg : String) (failed : List XRelation) (failedSources : List String)
  | raisedOther (msg : String) (failed : List XRelation) (failedSources : List String)
deriving Repr, DecidableEq

def extract_source (sourceName : String) (keepGoing : Bool)
    (outcome : XRelation → TableOutcome) :
    List XRelation → List String → List XRelation → SourceRun
  | [], failedSources, failed => .returned failed failedSources
  | r :: rest, failedSources, failed =>
    match outcome r with
    | .success => extract_source sourceName keepGoing outcome rest failedSources failed
    | .etlError msg =>
      let failedSources' := setUnion failedSources [sourceName]
      let failed' := failed ++ [r]
      if !r.isRequired then
        extract_source sourceName keepGoing outcome rest failedSources' failed'
      else if keepGoing then
        extract_source sourceName keepGoing outcome rest failedSources' failed'
      else .raisedEtl msg failed' failedSources'
    | .otherError msg => .raisedOther msg failed failedSources

/-! ## `Extractor.extract_sources` (`etl/extract/extractor.py`, lines 98-127)

The concurrent wait is modelled by its observable outcome: `done` is the
list of completed futures in iteration order (each either the returned
failure list of `extract_source` or the exception it raised) and
`notDone` the number of futures not complete when the wait returned. -/

/-- Model of `for future in done: missing_tables.extend(future.result())`: the first
exception encountered is re-raised. -/
def collectResults : List (Except EtlError (List String)) → Except EtlError (List String)
  | [] => .ok []
  | .error e :: _ => .error e
  | .ok xs :: rest =>
    match collectResults rest with
    | .error e => .error e
    | .ok ys => .ok (xs ++ ys)

def extract_sources (done : List (Except EtlError (List String))) (notDone : Nat) :
    Except EtlError (List String) :=
  match collectResults done with
  | .error e => .error e
  | .ok missingTables =>
    if notDone ≠ 0 then
      .error (.dataExtract ("Extract failed to complete for " ++
        toString notDone ++ " source(s)"))
    else .ok missingTables

/-! ## `RelationDescription.from_file_sets` (`etl/relation.py`, lines 148-171)

A file set is reduced to the fields the function reads; constructing a
`RelationDescription` from it is modelled as keeping the file set.  The
default `required_relation_selector=None` path is modelled (the selector
branch is `set_required_relations` above). -/

structure FileSet where
  designFileName : Option String
  files : List String
deriving Repr, DecidableEq

def from_file_sets (fileSets : List FileSet) : List FileSet :=
  fileSets.foldl (fun descriptions fileSet =>
    if fileSet.designFileName.isSome then descriptions ++ [fileSet]
    else descriptions) []

/-- Orders produced by a run of the resolution loop in which every popped
relation has no dependencies: positions are assigned in queue order,
continuing from `latest`. -/
def assignAll : List (Nat × Nat × String) → List (String × Nat) → Nat → List (String × Nat)
  | [], orders, _ => orders
  | e :: rest, orders, latest => assignAll rest ((e.2.2, latest + 1) :: orders) (latest + 1)

/-- Whether `extract_table` fails for this relation with an error
descending from `ETLRuntimeError`. -/
def etlFailed (outcome : XRelation → TableOutcome) (r : XRelation) : Bool :=
  match outcome r with
  | .etlError _ => true
  | _ => false

/-- A concrete `extract_table` behaviour: the relation `r1` fails with a
runtime error, everything else succeeds. -/
def demoOutcome : XRelation → TableOutcome := fun r =>
  if r.identifier = "r1" then .etlError "sqoop failed" else .success

/-! ## Concrete fixtures used by the scenario checks -/

/-- Linear chain: `c` depends on `b`, `b` on `a` (spec scenario 1). -/
def chainRels : List RelationDescription := [⟨"c", ["b"]⟩, ⟨"b", ["a"]⟩, ⟨"a", []⟩]

/-- A two-cycle `a ↔ b` (spec scenario 4). -/
def cyclePair : List RelationDescription := [⟨"a", ["b"]⟩, ⟨"b", ["a"]⟩]

/-- Scenario 3 of the spec: three independent relations and a
catalog-dependent one. -/
def scenario3cat : List RelationDescription :=
  [⟨"t1", []⟩, ⟨"t2", []⟩, ⟨"t3", []⟩, ⟨"cat", ["pg_catalog.pg_class"]⟩]

/-- Input for the stability counterexample: `a` (first) depends on `b`
(last); `c` is independent. -/
def stableCex : List RelationDescription := [⟨"a", ["b"]⟩, ⟨"c", []⟩, ⟨"b", []⟩]

/-- Three independent relations (spec scenario 2). -/
def xyzRels : List RelationDescription := [⟨"x", []⟩, ⟨"y", []⟩, ⟨"z", []⟩]

/-- Required-closure chain `u → v → w` plus isolated `x`
(spec scenario 5). -/
def closureRels : List RelationDescription :=
  [⟨"u", ["v"]⟩, ⟨"v", ["w"]⟩, ⟨"w", []⟩, ⟨"x", []⟩]

/-- A collection in which a relation is itself named under the reserved
`pg_catalog` prefix: `t → a → pg_catalog.b`, all three carrying a catalog
dependency. -/
def reservedNameRels : List RelationDescription :=
  [⟨"t", ["a", "pg_catalog.z"]⟩, ⟨"a", ["pg_catalog.b"]⟩,
   ⟨"pg_catalog.b", ["pg_catalog.w"]⟩]

/-! ## Utility lemmas about the helper functions -/

theorem lookupOrder_cons (k : String) (v : Nat) (orders : List (String × Nat)) (d : String) :
    lookupOrder ((k, v) :: orders) d = if d = k then some v else lookupOrder orders d := by
  by_cases h : d = k
  · subst h
    simp [lookupOrder, List.lookup_cons]
  · have hb : (d == k) = false := beq_eq_false_iff_ne.mpr h
    simp [lookupOrder, List.lookup_cons, hb, h]

theorem lookupOrder_none_iff (orders : List (String × Nat)) (d : String) :
    lookupOrder orders d = none ↔ d ∉ orders.map Prod.fst := by
  induction orders with
  | nil => simp [lookupOrder]
  | cons e rest ih =>
    rcases e with ⟨k, v⟩
    rw [lookupOrder_cons]
    by_cases h : d = k <;> simp [h, ih]

theorem lookupOrder_some_of_mem {orders : List (String × Nat)} {d : String}
    (h : d ∈ orders.map Prod.fst) : ∃ n, lookupOrder orders d = some n := by
  rcases ho : lookupOrder orders d with _ | n
  · exact absurd ((lookupOrder_none_iff orders d).1 ho) (not_not_intro h)
  · exact ⟨n, rfl⟩

theorem lookupOrder_mem_of_some {orders : List (String × Nat)} {d : String} {n : Nat}
    (h : lookupOrder orders d = some n) : d ∈ orders.map Prod.fst := by
  by_contra hmem
  rw [← lookupOrder_none_iff orders d] at hmem
  simp [hmem] at h

theorem lookupOrder_pair_mem {orders : List (String × Nat)} {d : String} {n : Nat}
    (h : lookupOrder orders d = some n) : (d, n) ∈ orders := by
  induction orders with
  | nil => simp [lookupOrder] at h
  | cons e rest ih =>
    rcases e with ⟨k, v⟩
    rw [lookupOrder_cons] at h
    by_cases hdk : d = k
    · simp [hdk] at h
      simp [hdk, h]
    · simp [hdk] at h
      exact List.mem_cons_of_mem _ (ih h)

theorem mem_setDiff {x : String} {xs ys : List String} :
    x ∈ setDiff xs ys ↔ x ∈ xs ∧ x ∉ ys := by
  simp [setDiff, List.mem_filter]

theorem mem_setUnion {x : String} {xs ys : List String} :
    x ∈ setUnion xs ys ↔ x ∈ xs ∨ x ∈ ys := by
  simp [setUnion, List.mem_filter]
  tauto

theorem le_foldl_max (l : List Nat) (a : Nat) : a ≤ l.foldl Nat.max a := by
  induction l generalizing a with
  | nil => simp
  | cons x xs ih => exact le_trans (Nat.le_max_left a x) (ih (Nat.max a x))

theorem mem_le_foldl_max {x : Nat} {l : List Nat} (a : Nat) (h : x ∈ l) :
    x ≤ l.foldl Nat.max a := by
  induction l generalizing a with
  | nil => simp at h
  | cons y ys ih =>
    rw [List.foldl_cons]
    rcases List.mem_cons.1 h with rfl | hmem
    · exact le_trans (Nat.le_max_right a x) (le_foldl_max ys (Nat.max a x))
    · exact ih (Nat.max a y) hmem

theorem foldl_max_le {l : List Nat} {a b : Nat} (ha : a ≤ b) (h : ∀ x ∈ l, x ≤ b) :
    l.foldl Nat.max a ≤ b := by
  induction l generalizing a with
  | nil => simpa
  | cons x xs ih =>
    exact ih (Nat.max_le.2 ⟨ha, h x (List.mem_cons_self x xs)⟩)
      (fun y hy => h y (List.mem_cons_of_mem x hy))

theorem maxAssigned_le {others : List (Option Nat)} {b : Nat}
    (h : ∀ m, some m ∈ others → m ≤ b) : maxAssigned others ≤ b := by
  refine foldl_max_le (Nat.zero_le b) (fun x hx => ?_)
  rw [List.mem_filterMap] at hx
  rcases hx with ⟨o, ho, hid⟩
  cases o with
  | none => simp at hid
  | some m => simp at hid; exact hid ▸ h m ho

theorem pqInsert_perm (e : Nat × Nat × String) (q : List (Nat × Nat × String)) :
    List.Perm (pqInsert e q) (e :: q) := by
  induction q with
  | nil => simp [pqInsert]
  | cons f rest ih =>
    rw [pqInsert]
    split
    · exact List.Perm.refl _
    · exact List.Perm.trans (List.Perm.cons f ih) (List.Perm.swap e f rest)

theorem pqMeasure_cons (N : Nat) (e : Nat × Nat × String) (q : List (Nat × Nat × String)) :
    pqMeasure N (e :: q) = (2 * N + 2 - e.1) + pqMeasure N q := by
  simp [pqMeasure]

theorem pqMeasure_pqInsert (N : Nat) (e : Nat × Nat × String) (q : List (Nat × Nat × String)) :
    pqMeasure N (pqInsert e q) = (2 * N + 2 - e.1) + pqMeasure N q := by
  have hp := (pqInsert_perm e q).map (fun f => 2 * N + 2 - f.1)
  have := hp.sum_eq
  simpa [pqMeasure] using this

/-- The identifiers sitting in the queue. -/
def qIds (q : List (Nat × Nat × String)) : List String :=
  q.map (fun e => e.2.2)

theorem qIds_cons (e : Nat × Nat × String) (q : List (Nat × Nat × String)) :
    qIds (e :: q) = e.2.2 :: qIds q := rfl

theorem qIds_pqInsert_perm (e : Nat × Nat × String) (q : List (Nat × Nat × String)) :
    List.Perm (qIds (pqInsert e q)) (e.2.2 :: qIds q) := by
  simpa [qIds] using (pqInsert_perm e q).map (fun f => f.2.2)

/-! ## The invariant of the resolution loop -/

structure LoopInv (dm : List (String × List String)) (idents : List String)
    (q : List (Nat × Nat × String)) (orders : List (String × Nat)) (latest : Nat) : Prop where
  covers : ∀ x ∈ idents, x ∈ qIds q ∨ x ∈ orders.map Prod.fst
  qSub : ∀ x ∈ qIds q, x ∈ idents
  oSub : ∀ x ∈ orders.map Prod.fst, x ∈ idents
  disj : ∀ x ∈ orders.map Prod.fst, x ∉ qIds q
  qNodup : (qIds q).Nodup
  oNodup : (orders.map Prod.fst).Nodup
  oVals : orders.map Prod.snd = (List.range' 1 latest).reverse
  topo : ∀ x n, lookupOrder orders x = some n →
    ∀ d ∈ (dm.lookup x).getD [], ∃ m, lookupOrder orders d = some m ∧ m < n

theorem LoopInv.val_le_latest {dm : List (String × List String)} {idents : List String}
    {q : List (Nat × Nat × String)} {orders : List (String × Nat)} {latest : Nat}
    (inv : LoopInv dm idents q orders latest)
    {x : String} {n : Nat} (h : lookupOrder orders x = some n) : 1 ≤ n ∧ n ≤ latest := by
  have hmem := lookupOrder_pair_mem h
  have hv : n ∈ orders.map Prod.snd := List.mem_map.2 ⟨(x, n), hmem, rfl⟩
  rw [inv.oVals, List.mem_reverse] at hv
  have := List.mem_range'_1.1 hv
  omega

theorem LoopInv.assign {dm : List (String × List String)} {idents : List String}
    {minimum tie : Nat} {ident : String} {rest : List (Nat × Nat × String)}
    {orders : List (String × Nat)} {latest : Nat}
    (inv : LoopInv dm idents ((minimum, tie, ident) :: rest) orders latest)
    (hdeps : ∀ d ∈ (dm.lookup ident).getD [], ∃ m, lookupOrder orders d = some m) :
    LoopInv dm idents rest ((ident, latest + 1) :: orders) (latest + 1) := by
  have hidq : ident ∈ qIds ((minimum, tie, ident) :: rest) := by
    rw [qIds_cons]; exact List.mem_cons_self _ _
  have hido : ident ∉ orders.map Prod.fst := fun hmem => inv.disj ident hmem hidq
  have hqtail : qIds ((minimum, tie, ident) :: rest) = ident :: qIds rest := qIds_cons _ _
  refine ⟨?_, ?_, ?_, ?_, ?_, ?_, ?_, ?_⟩
  · intro x hx
    rcases inv.covers x hx with hq | ho
    · rw [hqtail] at hq
      rcases List.mem_cons.1 hq with rfl | hq
      · right; simp
      · left; exact hq
    · right; simp [ho]
  · intro x hx
    exact inv.qSub x (by rw [hqtail]; exact List.mem_cons_of_mem _ hx)
  · intro x hx
    rw [List.map_cons] at hx
    rcases List.mem_cons.1 hx with rfl | ho
    · exact inv.qSub x hidq
    · exact inv.oSub x ho
  · intro x hx hq
    rw [List.map_cons] at hx
    rcases List.mem_cons.1 hx with rfl | ho
    · have := inv.qNodup
      rw [hqtail] at this
      exact (List.nodup_cons.1 this).1 hq
    · exact inv.disj x ho (by rw [hqtail]; exact List.mem_cons_of_mem _ hq)
  · have := inv.qNodup
    rw [hqtail] at this
    exact (List.nodup_cons.1 this).2
  · refine List.nodup_cons.2 ⟨hido, inv.oNodup⟩
  · have hr : (List.range' 1 (latest + 1)).reverse = (latest + 1) :: (List.range' 1 latest).reverse := by
      rw [List.range'_concat]
      simp
      omega
    rw [List.map_cons, inv.oVals, hr]
  · intro x n hx d hd
    rw [lookupOrder_cons] at hx
    by_cases hxi : x = ident
    · rw [if_pos hxi] at hx
      have hn : n = latest + 1 := (Option.some.inj hx).symm
      rcases hdeps d (by rw [← hxi]; exact hd) with ⟨m, hm⟩
      have hdident : d ≠ ident := by
        intro hcontra
        exact hido (lookupOrder_mem_of_some (hcontra ▸ hm))
      refine ⟨m, ?_, ?_⟩
      · rw [lookupOrder_cons, if_neg hdident]; exact hm
      · have := inv.val_le_latest hm
        omega
    · rw [if_neg hxi] at hx
      rcases inv.topo x n hx d hd with ⟨m, hm, hlt⟩
      have hdident : d ≠ ident := by
        intro hcontra
        exact hido (lookupOrder_mem_of_some (hcontra ▸ hm))
      refine ⟨m, ?_, hlt⟩
      rw [lookupOrder_cons, if_neg hdident]
      exact hm

theorem LoopInv.requeue {dm : List (String × List String)} {idents : List String}
    {minimum tie : Nat} {ident : String} {rest : List (Nat × Nat × String)}
    {orders : List (String × Nat)} {latest : Nat} (p' : Nat)
    (inv : LoopInv dm idents ((minimum, tie, ident) :: rest) orders latest) :
    LoopInv dm idents (pqInsert (p', tie, ident) rest) orders latest := by
  have hperm : List.Perm (qIds (pqInsert (p', tie, ident) rest))
      (qIds ((minimum, tie, ident) :: rest)) := by
    rw [qIds_cons]
    exact qIds_pqInsert_perm (p', tie, ident) rest
  refine ⟨?_, ?_, ?_, ?_, ?_, inv.oNodup, inv.oVals, inv.topo⟩
  · intro x hx
    rcases inv.covers x hx with hq | ho
    · left; exact hperm.mem_iff.2 hq
    · right; exact ho
  · intro x hx
    exact inv.qSub x (hperm.mem_iff.1 hx)
  · exact inv.oSub
  · intro x hx hq
    exact inv.disj x hx (hperm.mem_iff.1 hq)
  · exact hperm.nodup_iff.2 inv.qNodup

/-- What holds of the final order assignment when the loop finishes without
a cycle error. -/
structure OkResult (dm : List (String × List String)) (idents : List String)
    (finalOrders : List (String × Nat)) : Prop where
  total : ∀ x ∈ idents, ∃ n, lookupOrder finalOrders x = some n
  topo : ∀ x n, lookupOrder finalOrders x = some n →
    ∀ d ∈ (dm.lookup x).getD [], ∃ m, lookupOrder finalOrders d = some m ∧ m < n
  keysSub : ∀ x ∈ finalOrders.map Prod.fst, x ∈ idents
  keysNodup : (finalOrders.map Prod.fst).Nodup
  valsRange : ∃ L, finalOrders.map Prod.snd = (List.range' 1 L).reverse

theorem orderLoop_ok (dm : List (String × List String)) (N : Nat) (idents : List String) :
    ∀ (fuel : Nat) (q : List (Nat × Nat × String)) (orders : List (String × Nat))
      (latest pops : Nat) (finalOrders : List (String × Nat)),
    LoopInv dm idents q orders latest →
    orderLoop dm N fuel q orders latest pops = .ok finalOrders →
    OkResult dm idents finalOrders := by
  intro fuel
  induction fuel with
  | zero =>
    intro q orders latest pops finalOrders _ hrun
    simp [orderLoop] at hrun
  | succ fuel ih =>
    intro q orders latest pops finalOrders inv hrun
    match q with
    | [] =>
      have hfo : orders = finalOrders := by
        simpa [orderLoop] using hrun
      subst hfo
      have hqe : qIds ([] : List (Nat × Nat × String)) = [] := rfl
      refine ⟨?_, inv.topo, inv.oSub, inv.oNodup, ⟨latest, inv.oVals⟩⟩
      intro x hx
      rcases inv.covers x hx with hq | ho
      · rw [hqe] at hq; simp at hq
      · exact lookupOrder_some_of_mem ho
    | (minimum, tie, ident) :: rest =>
      simp only [orderLoop] at hrun
      split_ifs at hrun with h1 h2 h3 h4
      · have hdepsnil : (dm.lookup ident).getD [] = [] :=
          List.map_eq_nil_iff.1 (List.isEmpty_iff.1 h2)
        refine ih rest _ (latest + 1) (pops + 1) finalOrders (inv.assign ?_) hrun
        rw [hdepsnil]
        intro d hd
        simp at hd
      · have hall : ∀ d ∈ (dm.lookup ident).getD [], ∃ m, lookupOrder orders d = some m := by
          intro d hd
          have ht := List.all_eq_true.1 h3 (lookupOrder orders d)
            (List.mem_map.2 ⟨d, hd, rfl⟩)
          rcases ho : lookupOrder orders d with _ | m
          · rw [ho] at ht; simp [truthy] at ht
          · exact ⟨m, rfl⟩
        have hle : maxAssigned (((dm.lookup ident).getD []).map (lookupOrder orders)) ≤ latest := by
          refine maxAssigned_le (fun m hm => ?_)
          rcases List.mem_map.1 hm with ⟨d, _, hde⟩
          exact (inv.val_le_latest hde).2
        have hmax : Nat.max (maxAssigned (((dm.lookup ident).getD []).map (lookupOrder orders))) latest = latest :=
          Nat.max_eq_right hle
        rw [hmax] at hrun
        exact ih rest _ (latest + 1) (pops + 1) finalOrders (inv.assign hall) hrun
      · exact ih _ _ latest (pops + 1) finalOrders (inv.requeue _) hrun
      · exact ih _ _ latest (pops + 1) finalOrders (inv.requeue _) hrun

theorem measure_decrease {N minimum mrest fuel p : Nat} (h1 : ¬ minimum > 2 * N)
    (hlt : (2 * N + 2 - minimum) + mrest < fuel + 1) (hp : minimum + 1 ≤ p) :
    (2 * N + 2 - p) + mrest < fuel := by
  omega

theorem orderLoop_no_fuel_exhaustion (dm : List (String × List String)) (N : Nat) :
    ∀ (fuel : Nat) (q : List (Nat × Nat × String)) (orders : List (String × Nat))
      (latest pops : Nat),
    pqMeasure N q < fuel →
    orderLoop dm N fuel q orders latest pops ≠ .outOfFuel := by
  intro fuel
  induction fuel with
  | zero =>
    intro q orders latest pops hlt
    omega
  | succ fuel ih =>
    intro q orders latest pops hlt
    match q with
    | [] => simp [orderLoop]
    | (minimum, tie, ident) :: rest =>
      rw [pqMeasure_cons] at hlt
      simp only [orderLoop]
      split_ifs with h1 h2 h3 h4
      · simp
      · exact ih rest _ (latest + 1) (pops + 1) (by omega)
      · exact ih rest _ _ (pops + 1) (by omega)
      · refine ih _ orders latest (pops + 1) ?_
        rw [pqMeasure_pqInsert]
        refine measure_decrease h1 hlt ?_
        exact Nat.succ_le_succ
          (le_trans (Nat.le_max_right latest minimum) (Nat.le_max_right _ _))
      · refine ih _ orders latest (pops + 1) ?_
        rw [pqMeasure_pqInsert]
        exact measure_decrease h1 hlt (Nat.succ_le_succ (Nat.le_max_right latest minimum))

theorem orderLoop_cyclic_bound (dm : List (String × List String)) (N : Nat) :
    ∀ (fuel : Nat) (q : List (Nat × Nat × String)) (orders : List (String × Nat))
      (latest pops c : Nat),
    orderLoop dm N fuel q orders latest pops = .cyclic c →
    c ≤ pops + pqMeasure N q + 1 := by
  intro fuel
  induction fuel with
  | zero =>
    intro q orders latest pops c hrun
    simp [orderLoop] at hrun
  | succ fuel ih =>
    intro q orders latest pops c hrun
    match q with
    | [] => simp [orderLoop] at hrun
    | (minimum, tie, ident) :: rest =>
      rw [pqMeasure_cons]
      simp only [orderLoop] at hrun
      split_ifs at hrun with h1 h2 h3 h4
      · have hc : c = pops + 1 := by
          injection hrun with h
          omega
        omega
      · have := ih rest _ (latest + 1) (pops + 1) c hrun
        omega
      · have := ih rest _ _ (pops + 1) c hrun
        omega
      · have hb := ih _ orders latest (pops + 1) c hrun
        rw [pqMeasure_pqInsert] at hb
        have hp : minimum + 1 ≤
            Nat.max (maxAssigned (((dm.lookup ident).getD []).map (lookupOrder orders)))
              (Nat.max latest minimum) + 1 :=
          Nat.succ_le_succ
            (le_trans (Nat.le_max_right latest minimum) (Nat.le_max_right _ _))
        omega
      · have hb := ih _ orders latest (pops + 1) c hrun
        rw [pqMeasure_pqInsert] at hb
        have hp : minimum + 1 ≤ Nat.max latest minimum + 1 :=
          Nat.succ_le_succ (Nat.le_max_right latest minimum)
        omega

theorem initQueue_qIds (relations : List RelationDescription) :
    qIds (initQueue relations) = relations.map (·.identifier) := by
  unfold qIds initQueue
  rw [List.map_map]
  rw [show ((fun (e : Nat × Nat × String) => e.2.2) ∘
      fun (p : Nat × RelationDescription) => ((1 : Nat), p.1, p.2.identifier)) =
      ((fun (r : RelationDescription) => r.identifier) ∘ Prod.snd) from rfl]
  rw [← List.map_map, List.enum_map_snd]

theorem pqMeasure_initQueue (relations : List RelationDescription) (N : Nat) :
    pqMeasure N (initQueue relations) = relations.length * (2 * N + 1) := by
  unfold pqMeasure initQueue
  rw [List.map_map]
  rw [show ((fun (e : Nat × Nat × String) => 2 * N + 2 - e.1) ∘
      fun (p : Nat × RelationDescription) => ((1 : Nat), p.1, p.2.identifier)) =
      (fun _ => 2 * N + 1) from by funext p; simp [Function.comp]]
  rw [List.map_const', List.sum_replicate, List.enum_length, smul_eq_mul, Nat.mul_comm]

theorem loopInv_init (relations : List RelationDescription)
    (hnd : (relations.map (·.identifier)).Nodup) :
    LoopInv (depsMap relations) (relations.map (·.identifier))
      (initQueue relations) [] 0 := by
  refine ⟨?_, ?_, ?_, ?_, ?_, ?_, ?_, ?_⟩
  · intro x hx
    rw [initQueue_qIds]
    exact Or.inl hx
  · intro x hx
    rw [initQueue_qIds] at hx
    exact hx
  · intro x hx
    simp at hx
  · intro x hx
    simp at hx
  · rw [initQueue_qIds]
    exact hnd
  · simp
  · simp
  · intro x n hx
    simp [lookupOrder] at hx

theorem orderAssignments_ok {relations : List RelationDescription}
    (hnd : (relations.map (·.identifier)).Nodup)
    {finalOrders : List (String × Nat)}
    (h : orderAssignments relations = .ok finalOrders) :
    OkResult (depsMap relations) (relations.map (·.identifier)) finalOrders := by
  unfold orderAssignments at h
  exact orderLoop_ok _ _ _ _ _ _ _ _ _ (loopInv_init relations hnd) h

theorem orderAssignments_ne_outOfFuel (relations : List RelationDescription) :
    orderAssignments relations ≠ .outOfFuel := by
  unfold orderAssignments
  apply orderLoop_no_fuel_exhaustion
  rw [pqMeasure_initQueue]
  omega

theorem orderAssignments_cyclic_bound {relations : List RelationDescription} {c : Nat}
    (h : orderAssignments relations = .cyclic c) :
    c ≤ relations.length * (2 * (knownTables relations).length + 1) + 1 := by
  unfold orderAssignments at h
  have hb := orderLoop_cyclic_bound _ _ _ _ _ _ _ _ h
  rw [pqMeasure_initQueue] at hb
  simpa using hb

/-! ## Lemmas about the phase-1 normalization -/

theorem ident_inj {relations : List RelationDescription}
    (hnd : (relations.map (·.identifier)).Nodup) {a b : RelationDescription}
    (ha : a ∈ relations) (hb : b ∈ relations) (h : a.identifier = b.identifier) :
    a = b :=
  List.inj_on_of_nodup_map hnd ha hb h

theorem lookup_map_keyed {β : Type} {f : RelationDescription → β} :
    ∀ {relations : List RelationDescription}, (relations.map (·.identifier)).Nodup →
    ∀ {r : RelationDescription}, r ∈ relations →
    (relations.map (fun t => (t.identifier, f t))).lookup r.identifier = some (f r) := by
  intro relations
  induction relations with
  | nil =>
    intro _ r hr
    simp at hr
  | cons a rest ih =>
    intro hnd r hr
    rw [List.map_cons] at hnd
    rcases List.mem_cons.1 hr with rfl | hmem
    · simp [List.lookup_cons]
    · rw [List.map_cons, List.lookup_cons]
      have hne : r.identifier ≠ a.identifier := by
        intro he
        exact (List.nodup_cons.1 hnd).1
          (he ▸ List.mem_map.2 ⟨r, hmem, rfl⟩)
      rw [show (r.identifier == a.identifier) = false from beq_eq_false_iff_ne.mpr hne]
      exact ih (List.nodup_cons.1 hnd).2 hmem

theorem depsMap_lookup {relations : List RelationDescription}
    (hnd : (relations.map (·.identifier)).Nodup) {r : RelationDescription} (hr : r ∈ relations) :
    (depsMap relations).lookup r.identifier = some (finalDeps relations r) :=
  lookup_map_keyed hnd hr

theorem droppedDeps_subset_finalDeps {relations : List RelationDescription} {r : RelationDescription}
    {d : String} (hd : d ∈ droppedDeps (knownTables relations) r) :
    d ∈ finalDeps relations r := by
  unfold finalDeps
  split
  · exact mem_setUnion.2 (Or.inl hd)
  · exact hd

theorem mem_droppedDeps_iff {known : List String} {r : RelationDescription} {d : String} :
    d ∈ droppedDeps known r ↔
      d ∈ r.dependencies ∧ d ∈ known ∧ strStartsWith d "pg_catalog" = false := by
  unfold droppedDeps
  rw [mem_setDiff, mem_setDiff]
  unfold unknownDeps pgInternalDeps
  simp only [List.mem_filter]
  by_cases hs : strStartsWith d "pg_catalog" = true
  · simp [hs]
    tauto
  · rw [Bool.not_eq_true] at hs
    simp [hs]
    tauto

theorem foldl_unknowns {known : List String} :
    ∀ (l : List RelationDescription) (acc : List String), (∀ y ∈ acc, y ∉ known) →
    ∀ y ∈ l.foldl (fun a r => setUnion a (unknownDeps known r)) acc, y ∉ known := by
  intro l
  induction l with
  | nil =>
    intro acc hacc y hy
    exact hacc y hy
  | cons r rest ih =>
    intro acc hacc y hy
    rw [List.foldl_cons] at hy
    refine ih _ ?_ y hy
    intro z hz
    rcases mem_setUnion.1 hz with hza | hzu
    · exact hacc z hza
    · have := (List.mem_filter.1 hzu).2
      intro hzk
      simp [hzk] at this

theorem knownUnknowns_not_known {relations : List RelationDescription} {x : String}
    (hx : x ∈ knownUnknowns relations) : x ∉ knownTables relations := by
  unfold knownUnknowns at hx
  exact foldl_unknowns relations [] (by simp) x hx

theorem mem_hasInternalSet_of {relations : List RelationDescription} {r : RelationDescription}
    (hr : r ∈ relations) (hint : pgInternalDeps r ≠ []) :
    r.identifier ∈ hasInternalSet relations := by
  refine List.mem_map.2 ⟨r, List.mem_filter.2 ⟨hr, ?_⟩, rfl⟩
  simp [List.isEmpty_iff, hint]

theorem not_mem_hasInternalSet {relations : List RelationDescription}
    (hnd : (relations.map (·.identifier)).Nodup) {r : RelationDescription} (hr : r ∈ relations)
    (hno : pgInternalDeps r = []) : r.identifier ∉ hasInternalSet relations := by
  intro hmem
  rcases List.mem_map.1 hmem with ⟨t, ht, hid⟩
  have htr := (List.mem_filter.1 ht).1
  have hcond := (List.mem_filter.1 ht).2
  have : t = r := ident_inj hnd htr hr hid
  subst this
  rw [hno] at hcond
  simp at hcond

theorem mem_noInternalSet {relations : List RelationDescription}
    (hnd : (relations.map (·.identifier)).Nodup) {r : RelationDescription} (hr : r ∈ relations)
    (hno : pgInternalDeps r = []) : r.identifier ∈ noInternalSet relations := by
  unfold noInternalSet
  rw [mem_setDiff, mem_setDiff]
  have hk : r.identifier ∈ knownTables relations := by
    unfold knownTables
    exact List.mem_dedup.2 (List.mem_map.2 ⟨r, hr, rfl⟩)
  refine ⟨⟨hk, fun hu => knownUnknowns_not_known hu hk⟩, ?_⟩
  exact not_mem_hasInternalSet hnd hr hno

theorem noInternal_subset_finalDeps {relations : List RelationDescription} {r : RelationDescription}
    (hint : r.identifier ∈ hasInternalSet relations) {d : String}
    (hd : d ∈ noInternalSet relations) : d ∈ finalDeps relations r := by
  unfold finalDeps
  rw [if_pos (by simpa using hint)]
  exact mem_setUnion.2 (Or.inr hd)

/-- Strict order decrease along one resolved dependency edge. -/
theorem order_lt_of_dep {relations : List RelationDescription}
    (hnd : (relations.map (·.identifier)).Nodup) {finalOrders : List (String × Nat)}
    (hok : orderAssignments relations = .ok finalOrders)
    {a : RelationDescription} (ha : a ∈ relations) {d : String} (hd : d ∈ finalDeps relations a) :
    ∃ na m, lookupOrder finalOrders a.identifier = some na ∧
      lookupOrder finalOrders d = some m ∧ m < na := by
  have ok := orderAssignments_ok hnd hok
  have hid : a.identifier ∈ relations.map (·.identifier) :=
    List.mem_map.2 ⟨a, ha, rfl⟩
  rcases ok.total _ hid with ⟨na, hna⟩
  have hdm : ((depsMap relations).lookup a.identifier).getD [] = finalDeps relations a := by
    rw [depsMap_lookup hnd ha]
    rfl
  rcases ok.topo _ na hna d (by rw [hdm]; exact hd) with ⟨m, hm, hlt⟩
  exact ⟨na, m, hna, hm, hlt⟩

/-! ## From the result of `order_by_dependencies` back to the assignment -/

theorem order_by_dependencies_ok_elim {relations out : List RelationDescription}
    (h : order_by_dependencies relations = .ok out) :
    ∃ finalOrders, orderAssignments relations = .ok finalOrders ∧
      out = relations.insertionSort (fun a b =>
        ((lookupOrder finalOrders a.identifier).getD 0 : Nat) ≤
          (lookupOrder finalOrders b.identifier).getD 0) := by
  unfold order_by_dependencies at h
  rcases hoa : orderAssignments relations with orders | n | _ <;> rw [hoa] at h
  · exact ⟨orders, rfl, (Except.ok.inj h).symm⟩
  · exact absurd h (by simp)
  · exact absurd h (by simp)

theorem order_lt_of_transGen {relations : List RelationDescription}
    (hnd : (relations.map (·.identifier)).Nodup) {finalOrders : List (String × Nat)}
    (hok : orderAssignments relations = .ok finalOrders)
    {a b : String} (h : Relation.TransGen (DEdge relations) a b) :
    ∃ na nb, lookupOrder finalOrders a = some na ∧
      lookupOrder finalOrders b = some nb ∧ nb < na := by
  induction h with
  | single hab =>
    rcases hab with ⟨r, hr, rfl, hd⟩
    exact order_lt_of_dep hnd hok hr (droppedDeps_subset_finalDeps hd)
  | tail _ hbc ih =>
    rcases ih with ⟨na, nb, hna, hnb, hlt⟩
    rcases hbc with ⟨r, hr, rfl, hd⟩
    rcases order_lt_of_dep hnd hok hr (droppedDeps_subset_finalDeps hd) with
      ⟨nb2, nc, hnb2, hnc, hlt2⟩
    rw [hnb] at hnb2
    have : nb = nb2 := Option.some.inj hnb2
    exact ⟨na, nc, hna, hnc, by omega⟩

theorem no_transGen_of_no_edge_from {E : String → String → Prop} {a b : String}
    (h : ∀ z, ¬ E a z) : ¬ Relation.TransGen E a b := by
  intro ht
  rcases Relation.TransGen.head'_iff.1 ht with ⟨z, haz, _⟩
  exact h z haz

theorem no_transGen_of_no_edge_into {E : String → String → Prop} {a b : String}
    (h : ∀ z, ¬ E z b) : ¬ Relation.TransGen E a b := by
  intro ht
  cases ht with
  | single hab => exact h a hab
  | tail _ hcb => exact h _ hcb

/-! ## The loop on dependency-free inputs -/

theorem orderLoop_all_empty (dm : List (String × List String)) (N : Nat) :
    ∀ (q : List (Nat × Nat × String)) (fuel : Nat), q.length < fuel →
    (∀ e ∈ q, (dm.lookup e.2.2).getD [] = [] ∧ e.1 ≤ 2 * N) →
    ∀ (orders : List (String × Nat)) (latest pops : Nat),
    orderLoop dm N fuel q orders latest pops = .ok (assignAll q orders latest) := by
  intro q
  induction q with
  | nil =>
    intro fuel hf _ orders latest pops
    match fuel, hf with
    | fuel + 1, _ => simp [orderLoop, assignAll]
  | cons e rest ih =>
    intro fuel hf he orders latest pops
    match fuel, hf with
    | fuel + 1, hf =>
      rcases e with ⟨p, tie, ident⟩
      have hend := he (p, tie, ident) (List.mem_cons_self _ _)
      simp only [orderLoop]
      rw [if_neg (by omega)]
      rw [hend.1]
      simp only [List.map_nil, List.isEmpty_nil, if_true]
      rw [show assignAll ((p, tie, ident) :: rest) orders latest =
        assignAll rest ((ident, latest + 1) :: orders) (latest + 1) from rfl]
      exact ih fuel (by simpa using hf) (fun f hfm => he f (List.mem_cons_of_mem _ hfm))
        _ _ (pops + 1)

theorem assignAll_lookup :
    ∀ (q : List (Nat × Nat × String)) (orders : List (String × Nat)) (latest : Nat),
    (qIds q).Nodup → ∀ x : String,
    lookupOrder (assignAll q orders latest) x =
      if x ∈ qIds q then some (latest + 1 + (qIds q).indexOf x)
      else lookupOrder orders x := by
  intro q
  induction q with
  | nil =>
    intro orders latest _ x
    simp [assignAll, qIds]
  | cons e rest ih =>
    intro orders latest hnd x
    rw [qIds_cons] at hnd ⊢
    have hnd2 := List.nodup_cons.1 hnd
    rw [show assignAll (e :: rest) orders latest =
      assignAll rest ((e.2.2, latest + 1) :: orders) (latest + 1) from rfl]
    rw [ih _ (latest + 1) hnd2.2 x]
    by_cases hx : x ∈ qIds rest
    · rw [if_pos hx, if_pos (List.mem_cons_of_mem _ hx)]
      have hne : x ≠ e.2.2 := fun hc => hnd2.1 (hc ▸ hx)
      rw [List.indexOf_cons_ne _ (Ne.symm hne)]
      congr 1
      omega
    · rw [if_neg hx, lookupOrder_cons]
      by_cases hxe : x = e.2.2
      · rw [if_pos hxe, if_pos (by rw [hxe]; exact List.mem_cons_self _ _)]
        rw [hxe, List.indexOf_cons_self]
      · rw [if_neg hxe, if_neg (by
          intro hc
          rcases List.mem_cons.1 hc with hc1 | hc2
          · exact hxe hc1
          · exact hx hc2)]

theorem insertionSort_by_key_sorted (key : RelationDescription → Nat)
    (l : List RelationDescription) :
    (l.insertionSort (fun a b => key a ≤ key b)).Pairwise (fun a b => key a ≤ key b) := by
  haveI : IsTotal RelationDescription (fun a b => key a ≤ key b) :=
    ⟨fun a b => Nat.le_total _ _⟩
  haveI : IsTrans RelationDescription (fun a b => key a ≤ key b) :=
    ⟨fun a b c hab hbc => Nat.le_trans hab hbc⟩
  exact List.sorted_insertionSort _ _

/-! ## The claims about the dependency orderer -/

/-- C1: for every input collection accepted by the orderer (no cycle
detected), whenever `b` is in the resolved dependency set of `a`
(both relations being in the collection, hence in the output), the order
assigned to `a` is strictly greater than the order assigned to `b`; and
the output list is sorted by the assigned orders (and is a permutation of
the input). -/
theorem C1_order_respects_dependencies (relations out : List RelationDescription)
    (hnd : (relations.map (·.identifier)).Nodup)
    (hok : order_by_dependencies relations = .ok out) :
    ∃ finalOrders, orderAssignments relations = .ok finalOrders ∧
      (∀ a ∈ relations, ∀ b ∈ relations,
        b.identifier ∈ droppedDeps (knownTables relations) a →
        ∃ na nb, lookupOrder finalOrders a.identifier = some na ∧
          lookupOrder finalOrders b.identifier = some nb ∧ nb < na) ∧
      out.Pairwise (fun x y =>
        ((lookupOrder finalOrders x.identifier).getD 0 : Nat) ≤
          (lookupOrder finalOrders y.identifier).getD 0) ∧
      List.Perm out relations := by
  rcases order_by_dependencies_ok_elim hok with ⟨finalOrders, hoa, hout⟩
  refine ⟨finalOrders, hoa, ?_, ?_, ?_⟩
  · intro a ha b hb hdep
    exact order_lt_of_dep hnd hoa ha (droppedDeps_subset_finalDeps hdep)
  · subst hout
    exact insertionSort_by_key_sorted
      (fun x => (lookupOrder finalOrders x.identifier).getD 0) relations
  · subst hout
    exact List.perm_insertionSort _ _

/-- Witness for C1: the linear chain `c → b → a` is accepted and ordered
`[a, b, c]`. -/
theorem C1_witness :
    (chainRels.map (·.identifier)).Nodup ∧
    order_by_dependencies chainRels = .ok [⟨"a", []⟩, ⟨"b", ["a"]⟩, ⟨"c", ["b"]⟩] ∧
    (∃ finalOrders, orderAssignments chainRels = .ok finalOrders ∧
      (∀ a ∈ chainRels, ∀ b ∈ chainRels,
        b.identifier ∈ droppedDeps (knownTables chainRels) a →
        ∃ na nb, lookupOrder finalOrders a.identifier = some na ∧
          lookupOrder finalOrders b.identifier = some nb ∧ nb < na) ∧
      ([⟨"a", []⟩, ⟨"b", ["a"]⟩, ⟨"c", ["b"]⟩] :
          List RelationDescription).Pairwise (fun x y =>
        ((lookupOrder finalOrders x.identifier).getD 0 : Nat) ≤
          (lookupOrder finalOrders y.identifier).getD 0) ∧
      List.Perm [⟨"a", []⟩, ⟨"b", ["a"]⟩, ⟨"c", ["b"]⟩] chainRels) :=
  ⟨by decide, by decide,
    C1_order_respects_dependencies chainRels _ (by decide) (by decide)⟩

/-- C4 (amended): an input whose resolved dependency graph contains a
cycle of length at least 2 makes the orderer fail with
`CyclicDependency` — no order assignment is returned — and it does so
within `n·(2·N+1)+1` queue pops, where `n` is the number of input
relations and `N` the number of known tables (the failure triggers when a
popped priority exceeds `2·N`). -/
theorem C4_cyclic_dependency_detected (relations : List RelationDescription)
    (hnd : (relations.map (·.identifier)).Nodup)
    (hcyc : ∃ a b, a ≠ b ∧ Relation.TransGen (DEdge relations) a b ∧
      Relation.TransGen (DEdge relations) b a) :
    ∃ c, orderAssignments relations = .cyclic c ∧
      c ≤ relations.length * (2 * (knownTables relations).length + 1) + 1 := by
  rcases hcyc with ⟨a, b, _, hab, hba⟩
  rcases hres : orderAssignments relations with orders | c | _
  · exfalso
    rcases order_lt_of_transGen hnd hres (hab.trans hba) with ⟨na, nb, h1, h2, h3⟩
    rw [h1] at h2
    have : na = nb := Option.some.inj h2
    omega
  · exact ⟨c, rfl, orderAssignments_cyclic_bound hres⟩
  · exact absurd hres (orderAssignments_ne_outOfFuel relations)

/-- Counterexample to C4 as stated: on the two-cycle `a ↔ b` the
`CyclicDependency` failure is raised only at the ninth queue pop, while
`2·N = 4`. -/
theorem C4_counterexample :
    orderAssignments cyclePair = .cyclic 9 ∧
    (knownTables cyclePair).length = 2 ∧ ¬ (9 ≤ 2 * 2) :=
  ⟨by decide, by decide, by decide⟩

/-- Witness for the amended C4 at the two-cycle input. -/
theorem C4_witness :
    (cyclePair.map (·.identifier)).Nodup ∧
    (∃ a b, a ≠ b ∧ Relation.TransGen (DEdge cyclePair) a b ∧
      Relation.TransGen (DEdge cyclePair) b a) ∧
    (∃ c, orderAssignments cyclePair = .cyclic c ∧
      c ≤ cyclePair.length * (2 * (knownTables cyclePair).length + 1) + 1) :=
  ⟨by decide,
   ⟨"a", "b", by decide,
     .single ⟨⟨"a", ["b"]⟩, by decide, rfl, by decide⟩,
     .single ⟨⟨"b", ["a"]⟩, by decide, rfl, by decide⟩⟩,
   C4_cyclic_dependency_detected cyclePair (by decide)
     ⟨"a", "b", by decide,
       .single ⟨⟨"a", ["b"]⟩, by decide, rfl, by decide⟩,
       .single ⟨⟨"b", ["a"]⟩, by decide, rfl, by decide⟩⟩⟩

/-- C7: every relation that declared a `pg_catalog` dependency gains an
edge to each relation in the no-internal set and is ordered after every
relation that declared no `pg_catalog` dependency; on scenario 3 the three
unconstrained relations retain their input order ahead of the
catalog-dependent one. -/
theorem C7_catalog_dependent_last (relations : List RelationDescription)
    (hnd : (relations.map (·.identifier)).Nodup) (finalOrders : List (String × Nat))
    (hok : orderAssignments relations = .ok finalOrders) :
    (∀ cat ∈ relations, ∀ r ∈ relations,
      pgInternalDeps cat ≠ [] → pgInternalDeps r = [] →
      r.identifier ∈ finalDeps relations cat ∧
      ∃ ncat nr, lookupOrder finalOrders cat.identifier = some ncat ∧
        lookupOrder finalOrders r.identifier = some nr ∧ nr < ncat) ∧
    order_by_dependencies scenario3cat = .ok scenario3cat := by
  constructor
  · intro cat hcat r hr hcint hrint
    have hedge : r.identifier ∈ finalDeps relations cat :=
      noInternal_subset_finalDeps (mem_hasInternalSet_of hcat hcint)
        (mem_noInternalSet hnd hr hrint)
    rcases order_lt_of_dep hnd hok hcat hedge with ⟨ncat, nr, h1, h2, h3⟩
    exact ⟨hedge, ncat, nr, h1, h2, h3⟩
  · decide

/-- Witness for C7 at scenario 3. -/
theorem C7_witness :
    (scenario3cat.map (·.identifier)).Nodup ∧
    orderAssignments scenario3cat =
      .ok [("cat", 4), ("t3", 3), ("t2", 2), ("t1", 1)] ∧
    ((∀ cat ∈ scenario3cat, ∀ r ∈ scenario3cat,
      pgInternalDeps cat ≠ [] → pgInternalDeps r = [] →
      r.identifier ∈ finalDeps scenario3cat cat ∧
      ∃ ncat nr, lookupOrder [("cat", 4), ("t3", 3), ("t2", 2), ("t1", 1)]
          cat.identifier = some ncat ∧
        lookupOrder [("cat", 4), ("t3", 3), ("t2", 2), ("t1", 1)]
          r.identifier = some nr ∧ nr < ncat) ∧
    order_by_dependencies scenario3cat = .ok scenario3cat) :=
  ⟨by decide, by decide,
    C7_catalog_dependent_last scenario3cat (by decide) _ (by decide)⟩

/-- C8 (amended): an input with no dependencies at all is returned in
input order. -/
theorem C8_no_dependency_input_order (relations : List RelationDescription)
    (hnd : (relations.map (·.identifier)).Nodup)
    (hnodeps : ∀ r ∈ relations, r.dependencies = []) :
    order_by_dependencies relations = .ok relations := by
  have hlen : (knownTables relations).length = relations.length := by
    unfold knownTables
    rw [List.dedup_eq_self.2 hnd, List.length_map]
  by_cases hne : relations = []
  · subst hne
    decide
  · have hpos : 1 ≤ relations.length := by
      rcases relations with _ | ⟨a, b⟩
      · simp at hne
      · simp
    have hfd : ∀ r ∈ relations, finalDeps relations r = [] := by
      intro r hr
      have hint : hasInternalSet relations = [] := by
        unfold hasInternalSet
        rw [List.filter_eq_nil_iff.2 ?_]
        · simp
        · intro t ht
          simp [pgInternalDeps, hnodeps t ht]
      unfold finalDeps
      rw [hint]
      simp [droppedDeps, setDiff, hnodeps r hr]
    have hoa : orderAssignments relations = .ok (assignAll (initQueue relations) [] 0) := by
      unfold orderAssignments
      refine orderLoop_all_empty _ _ _ _ ?_ ?_ [] 0 0
      · rw [show (initQueue relations).length = relations.length from by
          unfold initQueue
          rw [List.length_map, List.enum_length]]
        have h2 : relations.length * 1 ≤
            relations.length * (2 * (knownTables relations).length + 1) :=
          Nat.mul_le_mul_left _ (by omega)
        omega
      · intro e he
        rcases List.mem_map.1 he with ⟨⟨i, r⟩, hmem, rfl⟩
        have hr : r ∈ relations := by
          have hs : (i, r).2 ∈ relations.enum.map Prod.snd :=
            List.mem_map.2 ⟨(i, r), hmem, rfl⟩
          rwa [List.enum_map_snd] at hs
        constructor
        · show ((depsMap relations).lookup r.identifier).getD [] = []
          rw [depsMap_lookup hnd hr, hfd r hr]
          rfl
        · show 1 ≤ 2 * (knownTables relations).length
          omega
    have hkey : ∀ i : Fin relations.length,
        lookupOrder (assignAll (initQueue relations) [] 0)
          (relations.get i).identifier = some (1 + (i : Nat)) := by
      intro i
      rw [assignAll_lookup _ [] 0 (by rw [initQueue_qIds]; exact hnd)]
      rw [initQueue_qIds]
      have hmem : (relations.get i).identifier ∈ relations.map (·.identifier) :=
        List.mem_map.2 ⟨relations.get i, List.mem_iff_get.2 ⟨i, rfl⟩, rfl⟩
      rw [if_pos hmem]
      have hgm : (relations.get i).identifier =
          (relations.map (·.identifier)).get ⟨i, by simpa using i.isLt⟩ := by
        rw [List.get_map]
      rw [hgm, List.get_indexOf hnd]
    have hsorted : relations.Pairwise (fun a b =>
        ((lookupOrder (assignAll (initQueue relations) [] 0) a.identifier).getD 0 : Nat) ≤
          (lookupOrder (assignAll (initQueue relations) [] 0) b.identifier).getD 0) := by
      rw [List.pairwise_iff_get]
      intro i j hij
      rw [hkey i, hkey j]
      simp only [Option.getD_some]
      have := Fin.lt_iff_val_lt_val.1 hij
      omega
    unfold order_by_dependencies
    rw [hoa]
    exact congrArg Except.ok (List.Sorted.insertionSort_eq hsorted)

/-- Counterexample to C8 as stated: in `stableCex` the relations `a`
(input position 0) and `c` (input position 1) are mutually unconstrained —
there is no resolved dependency path in either direction — yet the output
places `c` before `a`. -/
theorem C8_counterexample :
    stableCex.map (·.identifier) = ["a", "c", "b"] ∧
    order_by_dependencies stableCex =
      .ok [⟨"c", []⟩, ⟨"b", []⟩, ⟨"a", ["b"]⟩] ∧
    ¬ Relation.TransGen (DEdge stableCex) "a" "c" ∧
    ¬ Relation.TransGen (DEdge stableCex) "c" "a" := by
  refine ⟨by decide, by decide, ?_, ?_⟩
  · refine no_transGen_of_no_edge_into ?_
    rintro z ⟨r, hr, hid, hdep⟩
    rcases (show r = ⟨"a", ["b"]⟩ ∨ r = ⟨"c", []⟩ ∨ r = ⟨"b", []⟩ from by
      simpa [stableCex] using hr) with rfl | rfl | rfl
    · exact absurd hdep (by decide)
    · exact absurd hdep (by decide)
    · exact absurd hdep (by decide)
  · refine no_transGen_of_no_edge_from ?_
    rintro z ⟨r, hr, hid, hdep⟩
    rcases (show r = ⟨"a", ["b"]⟩ ∨ r = ⟨"c", []⟩ ∨ r = ⟨"b", []⟩ from by
      simpa [stableCex] using hr) with rfl | rfl | rfl
    · exact absurd hid (by decide)
    · rw [show droppedDeps (knownTables stableCex) ⟨"c", []⟩ = [] from by decide] at hdep
      simp at hdep
    · exact absurd hid (by decide)

/-- Witness for the amended C8 at the dependency-free input `[x, y, z]`. -/
theorem C8_witness :
    (xyzRels.map (·.identifier)).Nodup ∧ (∀ r ∈ xyzRels, r.dependencies = []) ∧
    order_by_dependencies xyzRels = .ok xyzRels :=
  ⟨by decide, by decide, C8_no_dependency_input_order xyzRels (by decide) (by decide)⟩

/-! ## The reverse walk of `set_required_relations` -/

theorem mem_walkStep_of_mem {req : List RelationDescription}
    {d x : RelationDescription} (hx : x ∈ req) : x ∈ walkStep req d := by
  unfold walkStep
  split
  · exact List.mem_append.2 (Or.inl hx)
  · exact hx

theorem walk_monotone :
    ∀ (l : List RelationDescription) (req : List RelationDescription)
    {x : RelationDescription}, x ∈ req → x ∈ l.foldl walkStep req := by
  intro l
  induction l with
  | nil =>
    intro req x hx
    exact hx
  | cons e rest ih =>
    intro req x hx
    rw [List.foldl_cons]
    exact ih _ (mem_walkStep_of_mem hx)

theorem mem_walkStep {req : List RelationDescription} {d x : RelationDescription}
    (hx : x ∈ walkStep req d) :
    x ∈ req ∨ (x = d ∧ ∃ r ∈ req, d.identifier ∈ r.dependencies) := by
  unfold walkStep at hx
  split at hx
  · rcases List.mem_append.1 hx with h | h
    · exact Or.inl h
    · rename_i hcond
      rcases List.any_eq_true.1 hcond with ⟨r, hr, hc⟩
      exact Or.inr ⟨by simpa using h, r, hr, by simpa using hc⟩
  · exact Or.inl hx

theorem walk_provenance :
    ∀ (l : List RelationDescription) (req : List RelationDescription)
    {x : RelationDescription}, x ∈ l.foldl walkStep req → x ∈ req ∨ x ∈ l := by
  intro l
  induction l with
  | nil =>
    intro req x hx
    exact Or.inl hx
  | cons e rest ih =>
    intro req x hx
    rw [List.foldl_cons] at hx
    rcases ih _ hx with h | h
    · rcases mem_walkStep h with h2 | ⟨rfl, _⟩
      · exact Or.inl h2
      · exact Or.inr (List.mem_cons_self _ _)
    · exact Or.inr (List.mem_cons_of_mem _ h)

theorem walk_sound (relations : List RelationDescription) (sel : String → Bool) :
    ∀ (l req : List RelationDescription),
    (∀ x ∈ req, x ∈ relations ∧ Reach relations sel x.identifier) →
    (∀ d ∈ l, d ∈ relations) →
    ∀ x ∈ l.foldl walkStep req, x ∈ relations ∧ Reach relations sel x.identifier := by
  intro l
  induction l with
  | nil =>
    intro req hreq _ x hx
    exact hreq x hx
  | cons e rest ih =>
    intro req hreq hl x hx
    rw [List.foldl_cons] at hx
    refine ih _ ?_ (fun d hd => hl d (List.mem_cons_of_mem _ hd)) x hx
    intro y hy
    rcases mem_walkStep hy with h | ⟨rfl, r, hr, hdep⟩
    · exact hreq y h
    · have herel : y ∈ relations := hl y (List.mem_cons_self _ _)
      exact ⟨herel, Reach.step r y.identifier (hreq r hr).1 (hreq r hr).2 hdep
        ⟨y, herel, rfl⟩⟩

theorem mem_walkStep_self {req : List RelationDescription} {d : RelationDescription}
    (hcond : req.any (fun r => r.dependencies.contains d.identifier) = true) :
    d ∈ walkStep req d := by
  unfold walkStep
  rw [if_pos hcond]
  exact List.mem_append.2 (Or.inr (List.mem_cons_self _ _))

theorem walk_complete (relations : List RelationDescription) (sel : String → Bool)
    (hnd : (relations.map (·.identifier)).Nodup)
    (ordered : List RelationDescription) (key : RelationDescription → Nat)
    (hperm : List.Perm ordered relations)
    (hsorted : List.Pairwise (fun a b => key a ≤ key b) ordered)
    (hkeys : ∀ r ∈ relations, ∀ d ∈ relations, d.identifier ∈ r.dependencies →
      key d < key r) :
    ∀ x : String, Reach relations sel x →
    ∃ t, t ∈ ordered.reverse.foldl walkStep
        (ordered.filter (fun d => sel d.identifier)) ∧ t.identifier = x := by
  intro x hx
  induction hx with
  | seed r hr hsel =>
    have hro : r ∈ ordered := hperm.mem_iff.2 hr
    exact ⟨r, walk_monotone _ _ (List.mem_filter.2 ⟨hro, hsel⟩), rfl⟩
  | step r y hr hreach hdep hnames ih =>
    rcases ih with ⟨tr, htr, htrid⟩
    have htrrel : tr ∈ relations := by
      rcases walk_provenance _ _ htr with h | h
      · exact hperm.subset (List.mem_filter.1 h).1
      · exact hperm.subset (List.mem_reverse.1 h)
    have htreq : tr = r := ident_inj hnd htrrel hr htrid
    subst htreq
    rcases hnames with ⟨tx, htxrel, htxid⟩
    have htxo : tx ∈ ordered.reverse := List.mem_reverse.2 (hperm.mem_iff.2 htxrel)
    rcases List.append_of_mem htxo with ⟨l1, l2, hsplit⟩
    have hklt : key tx < key tr :=
      hkeys tr hr tx htxrel (by rw [htxid]; exact hdep)
    have hrevsorted : List.Pairwise (fun a b => key b ≤ key a) ordered.reverse :=
      List.pairwise_reverse.2 hsorted
    rw [hsplit] at hrevsorted
    have hl2 : ∀ z ∈ l2, key z ≤ key tx := by
      have hp := (List.pairwise_append.1 hrevsorted).2.1
      exact fun z hz => (List.pairwise_cons.1 hp).1 z hz
    have hfold : ordered.reverse.foldl walkStep
        (ordered.filter (fun d => sel d.identifier)) =
        l2.foldl walkStep (walkStep
          (l1.foldl walkStep (ordered.filter (fun d => sel d.identifier))) tx) := by
      rw [hsplit, List.foldl_append, List.foldl_cons]
    have hrw1 : tr ∈ l1.foldl walkStep (ordered.filter (fun d => sel d.identifier)) := by
      rw [hfold] at htr
      rcases walk_provenance _ _ htr with h | h
      · rcases mem_walkStep h with h2 | ⟨heq, _⟩
        · exact h2
        · exfalso
          rw [heq] at hklt
          omega
      · exfalso
        have := hl2 tr h
        omega
    have hcond : (l1.foldl walkStep (ordered.filter (fun d => sel d.identifier))).any
        (fun q => q.dependencies.contains tx.identifier) = true := by
      refine List.any_eq_true.2 ⟨tr, hrw1, ?_⟩
      have hmemdep : tx.identifier ∈ tr.dependencies := by
        rw [htxid]
        exact hdep
      simpa using hmemdep
    have htx2 : tx ∈ walkStep
        (l1.foldl walkStep (ordered.filter (fun d => sel d.identifier))) tx :=
      mem_walkStep_self hcond
    refine ⟨tx, ?_, htxid⟩
    rw [hfold]
    exact walk_monotone _ _ htx2

/-- C5 (amended): provided no relation of the collection is itself
named under the reserved `pg_catalog` prefix, after the required-selector
runs every relation that is an ancestor of a seed relation under the
depends-on relation has `is_required = true`, and every other relation of
the collection has `is_required = false`. -/
theorem C5_required_closure (relations : List RelationDescription) (sel : String → Bool)
    (hnd : (relations.map (·.identifier)).Nodup)
    (hres : ∀ r ∈ relations, strStartsWith r.identifier "pg_catalog" = false)
    (flags : List (String × Bool))
    (hok : set_required_relations relations sel = .ok flags) :
    ∀ r ∈ relations, ∃ b, flags.lookup r.identifier = some b ∧
      (b = true ↔ Reach relations sel r.identifier) := by
  unfold set_required_relations at hok
  rcases hobd : order_by_dependencies relations with n | ordered <;> rw [hobd] at hok
  · exact absurd hok (by simp)
  · have hflags : flags = ordered.map (fun r => (r.identifier,
        ((ordered.reverse.foldl walkStep
          (ordered.filter (fun d => sel d.identifier))).map (·.identifier)).contains
            r.identifier)) :=
      (Except.ok.inj hok).symm
    rcases order_by_dependencies_ok_elim hobd with ⟨finalOrders, hoa, hord⟩
    have hperm : List.Perm ordered relations := by
      rw [hord]
      exact List.perm_insertionSort _ _
    have hordnd : (ordered.map (·.identifier)).Nodup :=
      (hperm.map (·.identifier)).nodup_iff.2 hnd
    have hsorted : List.Pairwise (fun a b =>
        ((lookupOrder finalOrders a.identifier).getD 0 : Nat) ≤
          (lookupOrder finalOrders b.identifier).getD 0) ordered := by
      rw [hord]
      exact insertionSort_by_key_sorted
        (fun x => (lookupOrder finalOrders x.identifier).getD 0) relations
    have hkeys : ∀ r ∈ relations, ∀ d ∈ relations,
        d.identifier ∈ r.dependencies →
        ((lookupOrder finalOrders d.identifier).getD 0 : Nat) <
          (lookupOrder finalOrders r.identifier).getD 0 := by
      intro r hr d hd hdep
      have hdrop : d.identifier ∈ droppedDeps (knownTables relations) r := by
        rw [mem_droppedDeps_iff]
        refine ⟨hdep, ?_, hres d hd⟩
        unfold knownTables
        exact List.mem_dedup.2 (List.mem_map.2 ⟨d, hd, rfl⟩)
      rcases order_lt_of_dep hnd hoa hr (droppedDeps_subset_finalDeps hdrop) with
        ⟨nr, nd, h1, h2, h3⟩
      rw [h1, h2]
      simpa using h3
    intro r hr
    have hro : r ∈ ordered := hperm.mem_iff.2 hr
    rw [hflags]
    refine ⟨_, lookup_map_keyed hordnd hro, ?_⟩
    constructor
    · intro hb
      have hmem : r.identifier ∈ (ordered.reverse.foldl walkStep
          (ordered.filter (fun d => sel d.identifier))).map (·.identifier) := by
        simpa using hb
      rcases List.mem_map.1 hmem with ⟨t, ht, htid⟩
      have hsound := walk_sound relations sel ordered.reverse
        (ordered.filter (fun d => sel d.identifier))
        (fun x hx => ⟨hperm.subset (List.mem_filter.1 hx).1,
          Reach.seed x (hperm.subset (List.mem_filter.1 hx).1)
            (by simpa using (List.mem_filter.1 hx).2)⟩)
        (fun d hd => hperm.subset (List.mem_reverse.1 hd))
        t ht
      rw [htid] at hsound
      exact hsound.2
    · intro hre
      rcases walk_complete relations sel hnd ordered
        (fun x => (lookupOrder finalOrders x.identifier).getD 0) hperm hsorted hkeys
        r.identifier hre with ⟨t, ht, htid⟩
      have hmem2 := List.mem_map.2 ⟨t, ht, htid⟩
      simpa using hmem2

/-- Counterexample to C5 as stated: when a relation of the collection is
itself named under the reserved `pg_catalog` prefix, the closure can miss
an ancestor.  Here `t` (the seed) transitively depends on `pg_catalog.b`
through `a`, yet `pg_catalog.b` ends with `is_required = false`. -/
theorem C5_counterexample :
    set_required_relations reservedNameRels (fun s => s == "t") =
      .ok [("a", true), ("pg_catalog.b", false), ("t", true)] ∧
    Reach reservedNameRels (fun s => s == "t") "pg_catalog.b" := by
  refine ⟨by decide, ?_⟩
  have h1 : Reach reservedNameRels (fun s => s == "t") "t" :=
    .seed ⟨"t", ["a", "pg_catalog.z"]⟩ (by decide) (by decide)
  have h2 : Reach reservedNameRels (fun s => s == "t") "a" :=
    .step ⟨"t", ["a", "pg_catalog.z"]⟩ "a" (by decide) h1 (by decide)
      ⟨⟨"a", ["pg_catalog.b"]⟩, by decide, rfl⟩
  exact .step ⟨"a", ["pg_catalog.b"]⟩ "pg_catalog.b" (by decide) h2 (by decide)
    ⟨⟨"pg_catalog.b", ["pg_catalog.w"]⟩, by decide, rfl⟩

/-- Witness for the amended C5 at scenario 5 (`u → v → w`, isolated `x`,
seed `u`). -/
theorem C5_witness :
    (closureRels.map (·.identifier)).Nodup ∧
    (∀ r ∈ closureRels, strStartsWith r.identifier "pg_catalog" = false) ∧
    set_required_relations closureRels (fun s => s == "u") =
      .ok [("w", true), ("x", false), ("v", true), ("u", true)] ∧
    (∀ r ∈ closureRels, ∃ b,
      (([("w", true), ("x", false), ("v", true), ("u", true)] :
        List (String × Bool)).lookup r.identifier) = some b ∧
      (b = true ↔ Reach closureRels (fun s => s == "u") r.identifier)) :=
  ⟨by decide, by decide, by decide,
    C5_required_closure closureRels _ (by decide) (by decide) _ (by decide)⟩

/-! ## The claims about `query_stmt` (C6) -/

/-- Counterexample to C6 as stated: on a query text ending in two
semicolons the code strips both, not a single one. -/
theorem C6_counterexample :
    query_stmt (some "q.sql") "SELECT 1;;" = .ok "SELECT 1" ∧
    specQueryCleanup "SELECT 1;;" = "SELECT 1;" ∧
    Except.ok (specQueryCleanup "SELECT 1;;") ≠
      query_stmt (some "q.sql") "SELECT 1;;" :=
  ⟨by decide, by decide, by decide⟩

/-- C6 (amended): reading `query_stmt` fails with `MissingQuery` when
the relation has no SQL file; otherwise it returns the fetched text with
surrounding whitespace stripped and ALL trailing semicolons removed — the
stripped text is the result followed by some number of semicolons, and the
result itself never ends in a semicolon. -/
theorem C6_query_cleanup (content name : String) :
    query_stmt none content = .error (.missingQuery "Missing SQL file") ∧
    ∀ res, query_stmt (some name) content = .ok res →
      (∃ k, (pyStrip content).data = res.data ++ List.replicate k ';') ∧
      (∀ c, res.data.getLast? = some c → c ≠ ';') := by
  refine ⟨rfl, ?_⟩
  intro res hres
  have hr : res = pyRstripSemi (pyStrip content) := (Except.ok.inj hres).symm
  subst hr
  constructor
  · refine ⟨((pyStrip content).data.reverse.takeWhile (· = ';')).length, ?_⟩
    show (pyStrip content).data =
      ((pyStrip content).data.reverse.dropWhile (· = ';')).reverse ++ _
    have hsplit := List.takeWhile_append_dropWhile (p := fun c => c = ';')
      (l := (pyStrip content).data.reverse)
    have hrep : (pyStrip content).data.reverse.takeWhile (· = ';') =
        List.replicate ((pyStrip content).data.reverse.takeWhile (· = ';')).length ';' := by
      rw [List.eq_replicate_iff]
      refine ⟨rfl, ?_⟩
      intro b hb
      have := List.mem_takeWhile_imp hb
      simpa using this
    calc (pyStrip content).data
        = (pyStrip content).data.reverse.reverse := (List.reverse_reverse _).symm
      _ = ((pyStrip content).data.reverse.takeWhile (· = ';') ++
            (pyStrip content).data.reverse.dropWhile (· = ';')).reverse := by rw [hsplit]
      _ = ((pyStrip content).data.reverse.dropWhile (· = ';')).reverse ++
            ((pyStrip content).data.reverse.takeWhile (· = ';')).reverse := by
              rw [List.reverse_append]
      _ = ((pyStrip content).data.reverse.dropWhile (· = ';')).reverse ++
            List.replicate ((pyStrip content).data.reverse.takeWhile (· = ';')).length ';' := by
              rw [← List.reverse_replicate, ← hrep]
  · intro c hc
    have hlast : ((pyStrip content).data.reverse.dropWhile (· = ';')).head? = some c := by
      rw [← List.getLast?_reverse]
      simpa [pyRstripSemi] using hc
    have hnot := List.head?_dropWhile_not (fun x => decide (x = ';'))
      (pyStrip content).data.reverse
    rw [hlast] at hnot
    simpa using hnot

/-- Witness for the amended C6 at a concrete query text. -/
theorem C6_witness :
    query_stmt (some "q.sql") "  SELECT 1;; " = .ok "SELECT 1" ∧
    (∃ k, (pyStrip "  SELECT 1;; ").data = "SELECT 1".data ++ List.replicate k ';') ∧
    (∀ c, "SELECT 1".data.getLast? = some c → c ≠ ';') :=
  ⟨by decide, (C6_query_cleanup "  SELECT 1;; " "q.sql").2 "SELECT 1" (by decide)⟩

/-! ## The claim about `write_manifest_file` (C2) -/

/-- C2, the code evaluated at the failing input: with `dry_run = false`,
the `_SUCCESS` marker present and no key containing `part` and ending in
`.gz` in the listing, the code uploads a manifest whose entry list is
empty instead of raising `MissingCsvFiles`; and in dry-run with the same
listing the `Found no CSV files` warning branch is likewise never taken.
(The `if not manifest` checks test the enclosing one-key dict, which is
never falsy, rather than the file list.) -/
theorem C2_empty_csv_list_not_detected :
    write_manifest_file false false "relbucket" "schema/data/rel.manifest"
      "srcbucket" "schema/rel/csv" true ["schema/rel/csv/_SUCCESS"] =
      .ok ⟨false, false, some ⟨"relbucket", "schema/data/rel.manifest",
        [("entries", [])]⟩⟩ ∧
    write_manifest_file true false "relbucket" "schema/data/rel.manifest"
      "srcbucket" "schema/rel/csv" true ["schema/rel/csv/_SUCCESS"] =
      .ok ⟨false, false, none⟩ :=
  ⟨by decide, by decide⟩

/-! ## The claim about `extract_sources` (C3) -/

theorem collectResults_error :
    ∀ (pre : List (Except EtlError (List String))) (e : EtlError)
      (post : List (Except EtlError (List String))),
    (∀ x ∈ pre, ∃ v, x = .ok v) →
    collectResults (pre ++ .error e :: post) = .error e := by
  intro pre
  induction pre with
  | nil =>
    intro e post _
    rfl
  | cons x rest ih =>
    intro e post hok
    rcases hok x (List.mem_cons_self _ _) with ⟨v, rfl⟩
    show (match collectResults (rest ++ .error e :: post) with
      | .error e2 => Except.error e2
      | .ok ys => .ok (v ++ ys)) = .error e
    rw [ih e post (fun y hy => hok y (List.mem_cons_of_mem _ hy))]

theorem collectResults_ok :
    ∀ (done : List (Except EtlError (List String))),
    (∀ x ∈ done, ∃ v, x = .ok v) →
    ∃ vs, collectResults done = .ok vs := by
  intro done
  induction done with
  | nil =>
    intro _
    exact ⟨[], rfl⟩
  | cons x rest ih =>
    intro hok
    rcases hok x (List.mem_cons_self _ _) with ⟨v, rfl⟩
    rcases ih (fun y hy => hok y (List.mem_cons_of_mem _ hy)) with ⟨vs, hvs⟩
    refine ⟨v ++ vs, ?_⟩
    show (match collectResults rest with
      | .error e2 => Except.error e2
      | .ok ys => .ok (v ++ ys)) = .ok (v ++ vs)
    rw [hvs]

/-- Counterexample to C3 as stated: a single source task completes with an
exception; the run fails by re-raising that exception, not with a
`DataExtract` error. -/
theorem C3_counterexample :
    extract_sources [.error (.etlRuntime "boom")] 0 =
      .error (.etlRuntime "boom") ∧
    ∀ msg, extract_sources [.error (.etlRuntime "boom")] 0 ≠
      .error (.dataExtract msg) := by
  refine ⟨by decide, ?_⟩
  intro msg h
  rw [show extract_sources [.error (.etlRuntime "boom")] 0 =
    .error (.etlRuntime "boom") from by decide] at h
  exact EtlError.noConfusion (Except.error.inj h)

/-- C3 (amended): an exception surfaced from a completed task is
re-raised as it is (the first in collection order); the `DataExtract`
error — whose count is the number of INCOMPLETE tasks — is raised exactly
when every completed task succeeded and some tasks were incomplete. -/
theorem C3_failure_aggregation (done : List (Except EtlError (List String)))
    (notDone : Nat) :
    (∀ pre e post, done = pre ++ .error e :: post →
      (∀ x ∈ pre, ∃ v, x = .ok v) →
      extract_sources done notDone = .error e) ∧
    ((∀ x ∈ done, ∃ v, x = .ok v) → notDone ≠ 0 →
      extract_sources done notDone = .error (.dataExtract
        ("Extract failed to complete for " ++ toString notDone ++ " source(s)"))) ∧
    ((∀ x ∈ done, ∃ v, x = .ok v) → notDone = 0 →
      ∃ vs, extract_sources done notDone = .ok vs) := by
  refine ⟨?_, ?_, ?_⟩
  · intro pre e post hdone hok
    unfold extract_sources
    rw [hdone, collectResults_error pre e post hok]
  · intro hok hnz
    unfold extract_sources
    rcases collectResults_ok done hok with ⟨vs, hvs⟩
    rw [hvs]
    exact if_pos hnz
  · intro hok hz
    unfold extract_sources
    rcases collectResults_ok done hok with ⟨vs, hvs⟩
    rw [hvs]
    exact ⟨vs, if_neg (fun hcon => hcon hz)⟩

/-- Witness for the amended C3: two successful tasks, two incomplete —
the run fails with `DataExtract` counting the incomplete tasks. -/
theorem C3_witness :
    extract_sources [Except.ok ["a.b"], Except.ok []] 2 =
      .error (.dataExtract ("Extract failed to complete for " ++
        toString 2 ++ " source(s)")) :=
  (C3_failure_aggregation [Except.ok ["a.b"], Except.ok []] 2).2.1
    (by
      intro x hx
      rcases List.mem_cons.1 hx with rfl | hx2
      · exact ⟨["a.b"], rfl⟩
      · rcases List.mem_cons.1 hx2 with rfl | hx3
        · exact ⟨[], rfl⟩
        · simp at hx3)
    (by omega)

/-! ## The claim about `extract_source` (C9) -/

theorem setUnion_single_mem {a : List String} {x : String} (h : x ∈ a) :
    setUnion a [x] = a := by
  unfold setUnion
  rw [show List.filter (fun y => !(a.contains y)) [x] = [] from by simp [h]]
  simp

theorem extract_source_swallow (s : String) (kg : Bool)
    (outcome : XRelation → TableOutcome) :
    ∀ (rels : List XRelation) (fs : List String) (fl : List XRelation),
    (∀ r ∈ rels, outcome r = .success ∨
      (∃ m, outcome r = .etlError m ∧ (r.isRequired = false ∨ kg = true))) →
    extract_source s kg outcome rels fs fl =
      .returned (fl ++ rels.filter (etlFailed outcome))
        (if rels.any (etlFailed outcome) then setUnion fs [s] else fs) := by
  intro rels
  induction rels with
  | nil =>
    intro fs fl _
    simp [extract_source]
  | cons r rest ih =>
    intro fs fl hsw
    have htail : ∀ x ∈ rest, outcome x = .success ∨
        (∃ m, outcome x = .etlError m ∧ (x.isRequired = false ∨ kg = true)) :=
      fun x hx => hsw x (List.mem_cons_of_mem _ hx)
    rcases hsw r (List.mem_cons_self _ _) with hsucc | ⟨m, herr, hpol⟩
    · have hef : etlFailed outcome r = false := by
        unfold etlFailed
        rw [hsucc]
      simp only [extract_source, hsucc]
      rw [ih fs fl htail]
      simp [List.filter_cons, List.any_cons, hef]
    · have hef : etlFailed outcome r = true := by
        unfold etlFailed
        rw [herr]
      have hidem : setUnion (setUnion fs [s]) [s] = setUnion fs [s] :=
        setUnion_single_mem (mem_setUnion.2 (Or.inr (List.mem_cons_self _ _)))
      simp only [extract_source, herr]
      by_cases hreq : r.isRequired = false
      · rw [if_pos (by simp [hreq])]
        rw [ih (setUnion fs [s]) (fl ++ [r]) htail]
        cases hany : rest.any (etlFailed outcome) <;>
          simp [List.filter_cons, List.any_cons, hef, hany, hidem, List.append_assoc]
      · have hreqt : r.isRequired = true := by
          revert hreq
          cases r.isRequired <;> simp
        have hkg : kg = true := by
          rcases hpol with h | h
          · exact absurd h hreq
          · exact h
        rw [if_neg (by simp [hreqt]), if_pos hkg]
        rw [ih (setUnion fs [s]) (fl ++ [r]) htail]
        cases hany : rest.any (etlFailed outcome) <;>
          simp [List.filter_cons, List.any_cons, hef, hany, hidem, List.append_assoc]

theorem extract_source_failfast (s : String)
    (outcome : XRelation → TableOutcome) :
    ∀ (pre : List XRelation) (r : XRelation) (post : List XRelation)
      (fs : List String) (fl : List XRelation) (m : String),
    (∀ x ∈ pre, outcome x = .success ∨
      (∃ m2, outcome x = .etlError m2 ∧ x.isRequired = false)) →
    outcome r = .etlError m → r.isRequired = true →
    extract_source s false outcome (pre ++ r :: post) fs fl =
      .raisedEtl m (fl ++ pre.filter (etlFailed outcome) ++ [r]) (setUnion fs [s]) := by
  intro pre
  induction pre with
  | nil =>
    intro r post fs fl m _ herr hreq
    simp only [List.nil_append, extract_source, herr]
    rw [if_neg (by simp [hreq]), if_neg (by simp)]
    simp
  | cons x pre2 ih =>
    intro r post fs fl m hok herr hreq
    have htail : ∀ y ∈ pre2, outcome y = .success ∨
        (∃ m2, outcome y = .etlError m2 ∧ y.isRequired = false) :=
      fun y hy => hok y (List.mem_cons_of_mem _ hy)
    rcases hok x (List.mem_cons_self _ _) with hsucc | ⟨m2, herr2, hreq2⟩
    · have hef : etlFailed outcome x = false := by
        unfold etlFailed
        rw [hsucc]
      simp only [List.cons_append, extract_source, hsucc, List.append_eq]
      rw [ih r post fs fl m htail herr hreq]
      simp [List.filter_cons, hef]
    · have hef : etlFailed outcome x = true := by
        unfold etlFailed
        rw [herr2]
      have hidem : setUnion (setUnion fs [s]) [s] = setUnion fs [s] :=
        setUnion_single_mem (mem_setUnion.2 (Or.inr (List.mem_cons_self _ _)))
      simp only [List.cons_append, extract_source, herr2, List.append_eq]
      rw [if_pos (by simp [hreq2])]
      rw [ih r post (setUnion fs [s]) (fl ++ [x]) m htail herr hreq]
      simp [List.filter_cons, hef, hidem, List.append_assoc]

theorem extract_source_other (s : String) (kg : Bool)
    (outcome : XRelation → TableOutcome) :
    ∀ (pre : List XRelation) (r : XRelation) (post : List XRelation)
      (fs : List String) (fl : List XRelation) (m : String),
    (∀ x ∈ pre, outcome x = .success ∨
      (∃ m2, outcome x = .etlError m2 ∧ (x.isRequired = false ∨ kg = true))) →
    outcome r = .otherError m →
    extract_source s kg outcome (pre ++ r :: post) fs fl =
      .raisedOther m (fl ++ pre.filter (etlFailed outcome))
        (if pre.any (etlFailed outcome) then setUnion fs [s] else fs) := by
  intro pre
  induction pre with
  | nil =>
    intro r post fs fl m _ herr
    simp only [List.nil_append, extract_source, herr]
    simp
  | cons x pre2 ih =>
    intro r post fs fl m hok herr
    have htail : ∀ y ∈ pre2, outcome y = .success ∨
        (∃ m2, outcome y = .etlError m2 ∧ (y.isRequired = false ∨ kg = true)) :=
      fun y hy => hok y (List.mem_cons_of_mem _ hy)
    rcases hok x (List.mem_cons_self _ _) with hsucc | ⟨m2, herr2, hpol⟩
    · have hef : etlFailed outcome x = false := by
        unfold etlFailed
        rw [hsucc]
      simp only [List.cons_append, extract_source, hsucc, List.append_eq]
      rw [ih r post fs fl m htail herr]
      simp [List.filter_cons, List.any_cons, hef]
    · have hef : etlFailed outcome x = true := by
        unfold etlFailed
        rw [herr2]
      have hidem : setUnion (setUnion fs [s]) [s] = setUnion fs [s] :=
        setUnion_single_mem (mem_setUnion.2 (Or.inr (List.mem_cons_self _ _)))
      simp only [List.cons_append, extract_source, herr2, List.append_eq]
      by_cases hreq : x.isRequired = false
      · rw [if_pos (by simp [hreq])]
        rw [ih r post (setUnion fs [s]) (fl ++ [x]) m htail herr]
        cases hany : pre2.any (etlFailed outcome) <;>
          simp [List.filter_cons, List.any_cons, hef, hany, hidem, List.append_assoc]
      · have hreqt : x.isRequired = true := by
          revert hreq
          cases x.isRequired <;> simp
        have hkg : kg = true := by
          rcases hpol with h | h
          · exact absurd h hreq
          · exact h
        rw [if_neg (by simp [hreqt]), if_pos hkg]
        rw [ih r post (setUnion fs [s]) (fl ++ [x]) m htail herr]
        cases hany : pre2.any (etlFailed outcome) <;>
          simp [List.filter_cons, List.any_cons, hef, hany, hidem, List.append_assoc]

/-- C9: the error policy of `extract_source`.  (a) When every failing
relation is non-required or `keep_going` holds, every error descending
from `ETLRuntimeError` is swallowed: the loop reaches the end of the
source, the source is recorded in `failed_sources` exactly when some
relation failed, and the failure list collects the failing relations in
order.  (b) With `keep_going = false`, an ETL error on a REQUIRED relation
re-raises, ending that source early, after the source and the relation are
recorded.  (c) An error not descending from `ETLRuntimeError` propagates
immediately and does not touch the failure bookkeeping. -/
theorem C9_error_policy (s : String) (kg : Bool)
    (outcome : XRelation → TableOutcome) :
    (∀ (rels : List XRelation) (fs : List String) (fl : List XRelation),
      (∀ r ∈ rels, outcome r = .success ∨
        (∃ m, outcome r = .etlError m ∧ (r.isRequired = false ∨ kg = true))) →
      extract_source s kg outcome rels fs fl =
        .returned (fl ++ rels.filter (etlFailed outcome))
          (if rels.any (etlFailed outcome) then setUnion fs [s] else fs)) ∧
    (∀ (pre : List XRelation) (r : XRelation) (post : List XRelation)
      (fs : List String) (fl : List XRelation) (m : String),
      kg = false →
      (∀ x ∈ pre, outcome x = .success ∨
        (∃ m2, outcome x = .etlError m2 ∧ x.isRequired = false)) →
      outcome r = .etlError m → r.isRequired = true →
      extract_source s kg outcome (pre ++ r :: post) fs fl =
        .raisedEtl m (fl ++ pre.filter (etlFailed outcome) ++ [r])
          (setUnion fs [s])) ∧
    (∀ (pre : List XRelation) (r : XRelation) (post : List XRelation)
      (fs : List String) (fl : List XRelation) (m : String),
      (∀ x ∈ pre, outcome x = .success ∨
        (∃ m2, outcome x = .etlError m2 ∧ (x.isRequired = false ∨ kg = true))) →
      outcome r = .otherError m →
      extract_source s kg outcome (pre ++ r :: post) fs fl =
        .raisedOther m (fl ++ pre.filter (etlFailed outcome))
          (if pre.any (etlFailed outcome) then setUnion fs [s] else fs)) := by
  refine ⟨extract_source_swallow s kg outcome, ?_, extract_source_other s kg outcome⟩
  intro pre r post fs fl m hkg hok herr hreq
  subst hkg
  exact extract_source_failfast s outcome pre r post fs fl m hok herr hreq

/-- Witness for C9: a source with a failing non-required relation under
fail-fast continues to the next relation and records the source. -/
theorem C9_witness :
    extract_source "S1" false demoOutcome [⟨"r1", false⟩, ⟨"r2", false⟩] [] [] =
      .returned [⟨"r1", false⟩] ["S1"] := by
  have h := (C9_error_policy "S1" false demoOutcome).1
    [⟨"r1", false⟩, ⟨"r2", false⟩] [] []
    (by
      intro r hr
      rcases List.mem_cons.1 hr with rfl | hr2
      · exact Or.inr ⟨"sqoop failed", rfl, Or.inl rfl⟩
      · rcases List.mem_cons.1 hr2 with rfl | hr3
        · exact Or.inl rfl
        · simp at hr3)
  rw [h]
  decide

/-! ## The claim about `from_file_sets` (C10) -/

/-- C10: `from_file_sets` returns a description for exactly the file
sets carrying a design file name, preserving input order; a file set
without one is skipped (no error is raised and no description produced
for it). -/
theorem C10_design_file_filter (fileSets : List FileSet) :
    from_file_sets fileSets =
      fileSets.filter (fun fileSet => fileSet.designFileName.isSome) := by
  have hgen : ∀ (l : List FileSet) (acc : List FileSet),
      l.foldl (fun descriptions fileSet =>
        if fileSet.designFileName.isSome then descriptions ++ [fileSet]
        else descriptions) acc =
      acc ++ l.filter (fun fileSet => fileSet.designFileName.isSome) := by
    intro l
    induction l with
    | nil =>
      intro acc
      simp
    | cons x rest ih =>
      intro acc
      rw [List.foldl_cons, ih, List.filter_cons]
      by_cases hx : x.designFileName.isSome = true
      · simp [hx, List.append_assoc]
      · simp [hx]
  unfold from_file_sets
  rw [hgen]
  simp

end Etl
